import Mathlib

/-!
Verification of the da-boot core against its specification.

The definitions below are shallow embeddings of the Rust sources:
machine integers become Nat with explicit reductions modulo powers of two
where overflow matters, device memory becomes a function from addresses to
byte values, and fallible code returns Except or Option.  Rust panics
(integer underflow in debug builds, out-of-bounds slice indexing) are
modelled by a distinguished error constructor so that theorems about
successful runs exclude them, exactly as a successful Rust run does.
-/

namespace DaBoot

/-! ## Interceptor primitives (payloads/interceptor/src/code.rs) -/

/-- Encoding of the Thumb-2 jumpout pair, ldr.w pc, [pc, 0]. -/
def JUMP : Nat := 0xf000f8df

/-- Thumb-2 NOP halfword. -/
def NOP : Nat := 0xbf00

/-- Test whether a leading halfword opens a 32-bit Thumb-2 instruction. -/
def is32bit (v : Nat) : Bool :=
  let v := v >>> 11
  v == 0b11101 || v == 0b11110 || v == 0b11111

/-- Test for the 16-bit PC-relative LDR literal encoding. -/
def isLdr (v : Nat) : Bool :=
  v &&& 0xF800 == 0x4800

/-- Register and scaled immediate of a 16-bit LDR literal. -/
def extractLdr (v : Nat) : Nat × Nat :=
  ((v >>> 8) &&& 7, (v &&& 0xFF) <<< 2)

/-- Pack a movw instruction (Thumb-2 wide encoding). -/
def packMovw (rd imm : Nat) : Nat :=
  let imm4 := (imm >>> 12) &&& 0xF
  let i := (imm >>> 11) &&& 1
  let imm3 := (imm >>> 8) &&& 0x7
  let imm8 := imm &&& 0xFF
  let hw1 := 0xF240 ||| (i <<< 10) ||| imm4
  let hw2 := (imm3 <<< 12) ||| (rd <<< 8) ||| imm8
  (hw1 <<< 16) ||| hw2

/-- Pack a movt instruction (Thumb-2 wide encoding). -/
def packMovt (rd imm : Nat) : Nat :=
  let imm4 := (imm >>> 12) &&& 0xF
  let i := (imm >>> 11) &&& 1
  let imm3 := (imm >>> 8) &&& 0x7
  let imm8 := imm &&& 0xFF
  let hw1 := 0xF2C0 ||| (i <<< 10) ||| imm4
  let hw2 := (imm3 <<< 12) ||| (rd <<< 8) ||| imm8
  (hw1 <<< 16) ||| hw2

/-- Pack the movw and movt pair loading the 32-bit value v into register r. -/
def packMovPair (r v : Nat) : Nat × Nat :=
  (packMovw r (v % 65536), packMovt r ((v >>> 16) % 65536))

/-! ## Device memory model

Memory is a function from byte addresses to byte values.  Writes reduce the
stored value modulo 256, mirroring the byte-typed stores of the source. -/

/-- Device memory, one byte per address. -/
def Mem : Type := Nat → Nat

/-- Read one byte. -/
def readByte (m : Mem) (a : Nat) : Nat := m a % 256

/-- Write one byte. -/
def writeByte (m : Mem) (a v : Nat) : Mem :=
  fun x => if x = a then v % 256 else m x

/-- Little-endian unaligned 16-bit read, as read_unaligned on a u16 pointer. -/
def readU16 (m : Mem) (a : Nat) : Nat :=
  readByte m a + 256 * readByte m (a + 1)

/-- Little-endian 32-bit read, as read_volatile on a u32 pointer. -/
def readU32 (m : Mem) (a : Nat) : Nat :=
  readByte m a + 256 * readByte m (a + 1) + 65536 * readByte m (a + 2)
    + 16777216 * readByte m (a + 3)

/-- Little-endian 16-bit write. -/
def writeU16 (m : Mem) (a v : Nat) : Mem :=
  writeByte (writeByte m a v) (a + 1) (v / 256)

/-- Little-endian 32-bit write. -/
def writeU32 (m : Mem) (a v : Nat) : Mem :=
  writeByte (writeByte (writeByte (writeByte m a v) (a + 1) (v / 256))
    (a + 2) (v / 65536)) (a + 3) (v / 16777216)

/-- Byte-by-byte copy of n bytes from src to dst, as ptr copy_nonoverlapping. -/
def copyBytes (m : Mem) (src dst n : Nat) : Mem :=
  match n with
  | 0 => m
  | Nat.succ k => writeByte (copyBytes m src dst k) (dst + k) (readByte m (src + k))

/-- Write a 32-bit Thumb-2 instruction: high halfword first, then low halfword,
each little-endian (write_thumb2_instr in code.rs). -/
def writeThumb2Instr (m : Mem) (a w : Nat) : Mem :=
  writeU16 (writeU16 m a (w >>> 16)) (a + 2) (w % 65536)

/-- Write the jumpout: the JUMP pair followed by the absolute target
(Interceptor::place_jump). -/
def placeJump (m : Mem) (a dest : Nat) : Mem :=
  writeU32 (writeU32 m a JUMP) (a + 4) dest

/-! ## Interceptor install and revert (payloads/interceptor/src/lib.rs) -/

/-- Clear the Thumb state bit of an address (addr and not 1). -/
def unmaskThumb2 (addr : Nat) : Nat := addr - addr % 2

/-- Displacement size chosen by Interceptor::replace.  The source tests the
raw target address, whose Thumb bit is still set, for 4-byte alignment. -/
def displacementSize (target : Nat) : Nat :=
  if target % 4 ≠ 0 then 10 else 8

/-- One trampoline record: trampoline code address and jumpback address. -/
structure Trampoline where
  address : Nat
  jumpAddress : Nat
deriving Repr, DecidableEq

/-- The interceptor pool: two parallel vectors. -/
structure InterceptorPool where
  address : List Nat
  trampoline : List Trampoline
deriving Repr, DecidableEq

/-- Interceptor error kinds. -/
inductive IError where
  | unsupportedMode
  | trampolineNotFound
  | panicked
deriving Repr, DecidableEq

/-- The prologue displacement loop of Interceptor::replace: reads halfwords at
the target, copies 32-bit instructions and plain 16-bit instructions verbatim,
and rewrites a 16-bit LDR literal into a movw plus movt pair.  Returns the
memory together with the final counters.  The loop runs while the target
counter is below size and every iteration advances it by at least two, so a
fuel of size strictly dominates the iteration count; the caller passes exactly
that, making this total function agree with the source loop. -/
def copyLoop (fuel : Nat) (m : Mem) (tgt code size nTarget nCode : Nat) :
    Mem × Nat × Nat :=
  match fuel with
  | 0 => (m, nTarget, nCode)
  | Nat.succ fuel =>
    if nTarget < size then
      let v := readU16 m (tgt + nTarget)
      if is32bit v then
        copyLoop fuel (copyBytes m (tgt + nTarget) (code + nCode) 4) tgt code size
          (nTarget + 4) (nCode + 4)
      else if isLdr v then
        let rv := extractLdr v
        let pcAligned := ((tgt + nTarget + 4) % 4294967296) / 4 * 4
        let litAddr := (pcAligned + rv.2) % 4294967296
        let value := readU32 m litAddr
        let mw := packMovPair rv.1 value
        let m := writeThumb2Instr m (code + nCode) mw.1
        let m := writeThumb2Instr m (code + nCode + 4) mw.2
        copyLoop fuel m tgt code size (nTarget + 2) (nCode + 8)
      else
        copyLoop fuel (copyBytes m (tgt + nTarget) (code + nCode) 2) tgt code size
          (nTarget + 2) (nCode + 2)
    else
      (m, nTarget, nCode)

/-- Does the displacement walk stay clear of 16-bit LDR literals?  The walk
visits exactly the instruction-start offsets the copy loop reads: it starts
at the given counter, skips four bytes over a 32-bit instruction and two
bytes otherwise, and answers false exactly when a visited halfword below
size passes the LDR literal test, that is, when the loop would relocate it
instead of copying it verbatim.  Halfwords inside a 32-bit instruction are
never consulted.  The fuel dominates the step count as in copyLoop. -/
def noLdrWalk (m : Mem) (tgt : Nat) : Nat → Nat → Nat → Bool
  | 0, _, _ => true
  | Nat.succ fuel, size, nT =>
    if nT < size then
      if is32bit (readU16 m (tgt + nT)) then noLdrWalk m tgt fuel size (nT + 4)
      else if isLdr (readU16 m (tgt + nT)) then false
      else noLdrWalk m tgt fuel size (nT + 2)
    else true

/-- The alignment padding of the trampoline write head.  The source loops
writing NOP halfwords until the head is 4-byte aligned; since the trampoline
allocation is 4-byte aligned and the head advances in even steps, at most one
NOP is ever written, which is what this function performs. -/
def alignPad (m : Mem) (code nCode : Nat) : Mem × Nat :=
  if (code + nCode) % 4 = 0 then (m, nCode)
  else (writeU16 m (code + nCode) NOP, nCode + 2)

/-- Interceptor::replace.  The trampoline buffer address (a fresh 64-byte
4-byte-aligned allocation in the source) is passed explicitly.  Cache flushes
have no effect on the memory model. -/
def interceptorReplace (m : Mem) (pool : InterceptorPool) (target code replacement : Nat) :
    Except IError (Mem × InterceptorPool) :=
  if target % 2 = 0 then
    .error .unsupportedMode
  else
    let targetPtr := unmaskThumb2 target
    let size := displacementSize target
    let res := copyLoop size m targetPtr code size 0 0
    let m := res.1
    let nTarget := res.2.1
    let res2 := alignPad m code res.2.2
    let m := res2.1
    let nCode := res2.2
    let jumpAddress := ((target + nTarget) % 4294967296) ||| 1
    let m := writeU32 m (code + nCode) JUMP
    let m := writeU32 m (code + nCode + 4) jumpAddress
    let pool : InterceptorPool :=
      { address := pool.address ++ [targetPtr]
        trampoline := pool.trampoline ++ [⟨code, jumpAddress⟩] }
    let st := if targetPtr % 4 ≠ 0 then (writeU16 m targetPtr NOP, targetPtr + 2)
              else (m, targetPtr)
    let m := placeJump st.1 st.2 (replacement ||| 1)
    .ok (m, pool)

/-- Interceptor::revert: look the unmasked target up in the pool, copy
jump_address minus target bytes from the trampoline back over the site, and
drop the pool entry.  A jumpback address below the target would underflow the
usize subtraction in the source, modelled as a panic. -/
def interceptorRevert (m : Mem) (pool : InterceptorPool) (target : Nat) :
    Except IError (Mem × InterceptorPool) :=
  if target % 2 = 0 then
    .error .unsupportedMode
  else
    let t := unmaskThumb2 target
    match pool.address.indexOf? t with
    | none => .error .trampolineNotFound
    | some i =>
      match pool.trampoline.get? i with
      | none => .error .panicked
      | some tr =>
        if tr.jumpAddress < t then .error .panicked
        else
          let size := tr.jumpAddress - t
          let m := copyBytes m tr.address t size
          .ok (m, { address := pool.address.eraseIdx i
                    trampoline := pool.trampoline.eraseIdx i })

/-! ## Concrete interceptor scenario for claims C1 and C2

A Thumb function entry at address 9 (so the aligned site is 8) whose first
instruction is the 16-bit literal load LDR R0, PC-relative 0 (halfword 0x4800),
followed by four NOP halfwords.  The trampoline buffer is at address 1000. -/

/-- Initial device memory of the scenario. -/
def c1m0 : Mem := fun a =>
  if a = 9 then 0x48
  else if a = 11 then 0xbf
  else if a = 13 then 0xbf
  else if a = 15 then 0xbf
  else if a = 17 then 0xbf
  else 0

/-- Install a hook at target 9 with trampoline buffer 1000. -/
def c1Install : Except IError (Mem × InterceptorPool) :=
  interceptorReplace c1m0 ⟨[], []⟩ 9 1000 0x90000000

/-- Install a hook and then revert it, returning the final memory when both
steps succeed.  This is the composition the specification quantifies over. -/
def installThenRevert (m0 : Mem) (pool : InterceptorPool) (target code repl : Nat) :
    Option Mem :=
  match interceptorReplace m0 pool target code repl with
  | .ok st =>
    match interceptorRevert st.1 st.2 target with
    | .ok st2 => some st2.1
    | _ => none
  | _ => none

/-- Memory after installing and then reverting the hook at target 9. -/
def c1Final : Option Mem :=
  installThenRevert c1m0 ⟨[], []⟩ 9 1000 0x90000000

/-! ## Memory helper lemmas -/

theorem writeByte_self (m : Mem) (a v : Nat) : writeByte m a v a = v % 256 := by
  simp [writeByte]

theorem writeByte_other (m : Mem) (a v x : Nat) (h : x ≠ a) : writeByte m a v x = m x := by
  simp [writeByte, h]

theorem copyBytes_frame (m : Mem) (src dst n x : Nat)
    (h : x < dst ∨ dst + n ≤ x) : copyBytes m src dst n x = m x := by
  induction n with
  | zero => rfl
  | succ k ih =>
    simp only [copyBytes]
    rw [writeByte_other, ih]
    · omega
    · omega

theorem copyBytes_read (m : Mem) (src dst n k : Nat) (h : k < n) :
    copyBytes m src dst n (dst + k) = m (src + k) % 256 := by
  induction n with
  | zero => omega
  | succ j ih =>
    simp only [copyBytes]
    rcases Nat.lt_or_ge k j with hk | hk
    · rw [writeByte_other _ _ _ _ (by omega), ih hk]
    · have hkj : k = j := by omega
      subst hkj
      rw [writeByte_self]
      simp [readByte, Nat.mod_mod_of_dvd]

theorem writeU16_frame (m : Mem) (a v x : Nat) (h : x < a ∨ a + 2 ≤ x) :
    writeU16 m a v x = m x := by
  unfold writeU16
  rw [writeByte_other _ _ _ _ (by omega), writeByte_other _ _ _ _ (by omega)]

theorem writeU32_frame (m : Mem) (a v x : Nat) (h : x < a ∨ a + 4 ≤ x) :
    writeU32 m a v x = m x := by
  unfold writeU32
  rw [writeByte_other _ _ _ _ (by omega), writeByte_other _ _ _ _ (by omega),
    writeByte_other _ _ _ _ (by omega), writeByte_other _ _ _ _ (by omega)]

theorem writeThumb2Instr_frame (m : Mem) (a w x : Nat) (h : x < a ∨ a + 4 ≤ x) :
    writeThumb2Instr m a w x = m x := by
  unfold writeThumb2Instr
  rw [writeU16_frame _ _ _ _ (by omega), writeU16_frame _ _ _ _ (by omega)]

theorem placeJump_frame (m : Mem) (a d x : Nat) (h : x < a ∨ a + 8 ≤ x) :
    placeJump m a d x = m x := by
  unfold placeJump
  rw [writeU32_frame _ _ _ _ (by omega), writeU32_frame _ _ _ _ (by omega)]

/-! ## Claim C2: displacement size of a Thumb hook installation -/

/-- C2 (amended): the displacement size is 10 for every accepted Thumb target,
whatever the alignment of the cleared address, because the source applies the
4-byte alignment test to the raw target whose Thumb bit is still set. -/
theorem c2_thumb_displacement_always_ten (t : Nat) (h : t % 2 = 1) :
    displacementSize t = 10 := by
  unfold displacementSize
  rw [if_pos]
  omega

/-- Witness for c2_thumb_displacement_always_ten at the concrete Thumb
address 0x80020001. -/
theorem c2_thumb_displacement_always_ten_witness :
    0x80020001 % 2 = 1 ∧ displacementSize 0x80020001 = 10 :=
  ⟨by decide, c2_thumb_displacement_always_ten 0x80020001 (by decide)⟩

/-- C2 counterexample: the claim predicts displacement 8 for a target whose
cleared address is 4-byte aligned, but the code computes 10 there. -/
theorem c2_counterexample :
    unmaskThumb2 0x80020001 % 4 = 0 ∧ displacementSize 0x80020001 = 10 ∧
      displacementSize 0x80020001 ≠ 8 := by
  decide

/-! ## Claim C1: revert restores the displaced bytes -/

/-- C1 counterexample: with a 16-bit LDR literal as the first displaced
instruction, the byte at the cleared target address after install plus revert
is 0x4B (the low byte of the relocated movw) while it was 0x00 before, and
that address lies inside the displacement window. -/
theorem c1_counterexample :
    (c1Final.map fun m => readByte m 8) = some 0x4B ∧
      readByte c1m0 8 = 0x00 ∧ unmaskThumb2 9 = 8 ∧ 0 < displacementSize 9 := by
  decide

/-- Agreement on the displaced stretch transports the LDR-free walk. -/
theorem noLdrWalk_congr (tgt : Nat) :
    ∀ (fuel : Nat) (m m2 : Mem) (size nT : Nat),
      (∀ y, y ≤ size → m2 (tgt + y) = m (tgt + y)) →
      noLdrWalk m2 tgt fuel size nT = noLdrWalk m tgt fuel size nT := by
  intro fuel
  induction fuel with
  | zero =>
    intro m m2 size nT h
    rfl
  | succ f ih =>
    intro m m2 size nT h
    simp only [noLdrWalk]
    by_cases hlt : nT < size
    · rw [if_pos hlt, if_pos hlt]
      have h16 : readU16 m2 (tgt + nT) = readU16 m (tgt + nT) := by
        have e1 := h nT (by omega)
        have e2 := h (nT + 1) (by omega)
        simp only [readU16, readByte]
        rw [show tgt + nT + 1 = tgt + (nT + 1) from by omega, e1, e2]
      rw [h16]
      by_cases h32 : is32bit (readU16 m (tgt + nT)) = true
      · rw [if_pos h32, if_pos h32]
        exact ih m m2 size (nT + 4) h
      · rw [if_neg h32, if_neg h32]
        by_cases hld : isLdr (readU16 m (tgt + nT)) = true
        · rw [if_pos hld, if_pos hld]
        · rw [if_neg hld, if_neg hld]
          exact ih m m2 size (nT + 2) h
    · rw [if_neg hlt, if_neg hlt]

/-- When the displacement walk never meets a 16-bit LDR literal at a visited
instruction start, the loop copies the prologue verbatim: both counters
advance in lockstep, the loop stops at or just past size, all writes stay
inside the trampoline window, and the trampoline bytes equal the source bytes
at equal offsets.  Halfwords inside a 32-bit instruction are unconstrained:
the loop skips over them without testing them. -/
theorem copyLoop_verbatim (tgt code size : Nat)
    (hdisj : tgt + size + 4 ≤ code ∨ code + 64 ≤ tgt) (hsz64 : size + 8 ≤ 64) :
    ∀ (fuel : Nat) (m : Mem) (nT : Nat), size ≤ nT + 2 * fuel → nT ≤ size + 3 →
    noLdrWalk m tgt fuel size nT = true →
    ∃ m' nT', copyLoop fuel m tgt code size nT nT = (m', nT', nT') ∧
      size ≤ nT' ∧ nT' ≤ size + 3 ∧ nT ≤ nT' ∧ nT' % 2 = nT % 2 ∧
      (∀ x, x < code + nT ∨ code + nT' ≤ x → m' x = m x) ∧
      (∀ j, nT ≤ j → j < nT' → readByte m' (code + j) = readByte m (tgt + j)) := by
  intro fuel
  induction fuel with
  | zero =>
    intro m nT h1 h2 h3
    exact ⟨m, nT, rfl, by omega, h2, le_refl nT, rfl, fun x _ => rfl, fun j hj1 hj2 => by omega⟩
  | succ f ih =>
    intro m nT h1 h2 hwalk
    by_cases hlt : nT < size
    · simp only [noLdrWalk, if_pos hlt] at hwalk
      have hstep : ∀ (w : Nat), 2 ≤ w ∧ w ≤ 4 →
          noLdrWalk m tgt f size (nT + w) = true →
          ∃ m' nT', copyLoop f (copyBytes m (tgt + nT) (code + nT) w) tgt code size
              (nT + w) (nT + w) = (m', nT', nT') ∧
            size ≤ nT' ∧ nT' ≤ size + 3 ∧ nT + w ≤ nT' ∧ nT' % 2 = (nT + w) % 2 ∧
            (∀ x, x < code + nT ∨ code + nT' ≤ x → m' x = m x) ∧
            (∀ j, nT ≤ j → j < nT' → readByte m' (code + j) = readByte m (tgt + j)) := by
        intro w hw hwnext
        have hdisj2 : ∀ y, y ≤ size + 3 →
            copyBytes m (tgt + nT) (code + nT) w (tgt + y) = m (tgt + y) := by
          intro y hy
          apply copyBytes_frame
          rcases hdisj with hA | hB
          · left; omega
          · right; omega
        obtain ⟨m', nT', heq, ha, hb, hc, hpar, hframe, hcontent⟩ :=
          ih (copyBytes m (tgt + nT) (code + nT) w) (nT + w) (by omega) (by omega)
            (by
              rw [noLdrWalk_congr tgt f m (copyBytes m (tgt + nT) (code + nT) w)
                size (nT + w) (fun y hy => hdisj2 y (by omega))]
              exact hwnext)
        refine ⟨m', nT', heq, ha, hb, by omega, hpar, ?_, ?_⟩
        · intro x hx
          have hfx : m' x = copyBytes m (tgt + nT) (code + nT) w x := by
            apply hframe
            rcases hx with hx | hx
            · left; omega
            · right; omega
          rw [hfx]
          apply copyBytes_frame
          rcases hx with hx | hx
          · left; omega
          · right; omega
        · intro j hj1 hj2
          rcases Nat.lt_or_ge j (nT + w) with hjw | hjw
          · have hfx : m' (code + j) = copyBytes m (tgt + nT) (code + nT) w (code + j) := by
              apply hframe; left; omega
            have hread : copyBytes m (tgt + nT) (code + nT) w (code + nT + (j - nT)) =
                m (tgt + nT + (j - nT)) % 256 := copyBytes_read _ _ _ _ _ (by omega)
            have hj' : code + nT + (j - nT) = code + j := by omega
            have hj'' : tgt + nT + (j - nT) = tgt + j := by omega
            rw [hj', hj''] at hread
            simp [readByte, hfx, hread]
          · have := hcontent j hjw hj2
            rw [this]
            have e1 : copyBytes m (tgt + nT) (code + nT) w (tgt + j) = m (tgt + j) :=
              hdisj2 j (by omega)
            simp [readByte, e1]
      by_cases h32 : is32bit (readU16 m (tgt + nT))
      · have hwnext : noLdrWalk m tgt f size (nT + 4) = true := by
          rwa [if_pos h32] at hwalk
        obtain ⟨m', nT', heq, ha, hb, hc, hpar, hframe, hcontent⟩ :=
          hstep 4 (by omega) hwnext
        refine ⟨m', nT', ?_, ha, hb, by omega, by omega, hframe, hcontent⟩
        simp only [copyLoop, if_pos hlt, h32, if_pos]
        exact heq
      · rw [if_neg h32] at hwalk
        have hldr : isLdr (readU16 m (tgt + nT)) = false := by
          by_contra hcon
          rw [Bool.not_eq_false] at hcon
          rw [if_pos hcon] at hwalk
          exact Bool.false_ne_true hwalk
        rw [if_neg (by simp [hldr])] at hwalk
        obtain ⟨m', nT', heq, ha, hb, hc, hpar, hframe, hcontent⟩ :=
          hstep 2 (by omega) hwalk
        refine ⟨m', nT', ?_, ha, hb, by omega, by omega, hframe, hcontent⟩
        simp only [copyLoop, if_pos hlt, h32, hldr]
        simpa using heq
    · refine ⟨m, nT, ?_, by omega, h2, le_refl nT, rfl, fun x _ => rfl,
        fun j hj1 hj2 => by omega⟩
      simp only [copyLoop, if_neg hlt]

theorem lor_one_of_odd (n : Nat) (h : n % 2 = 1) : n ||| 1 = n := by
  apply Nat.eq_of_testBit_eq
  intro i
  rw [Nat.testBit_lor]
  cases i with
  | zero => simp [Nat.testBit_zero, h]
  | succ j => simp [Nat.testBit_succ]

/-- Reverting a single-entry pool whose trampoline window already carries the
original bytes writes those bytes back over the displacement window. -/
theorem interceptorRevert_readback (m0 m4 : Mem) (tp nT code target j : Nat)
    (h10 : 10 ≤ nT) (h13 : nT ≤ 13) (hj : j < 10)
    (htarget : target = tp + 1) (hodd : target % 2 = 1)
    (hm4 : ∀ jj, jj < 10 → readByte m4 (code + jj) = readByte m0 (tp + jj)) :
    Option.map (fun m => readByte m (tp + j))
        (match interceptorRevert m4 ⟨[tp], [⟨code, target + nT⟩]⟩ target with
          | .ok st2 => some st2.1
          | _ => none) =
      some (readByte m0 (tp + j)) := by
  unfold interceptorRevert
  rw [if_neg (by omega)]
  have hun : unmaskThumb2 target = tp := by unfold unmaskThumb2; omega
  simp only [hun, List.indexOf?, List.findIdx?, beq_self_eq_true, cond_true, if_true,
    List.get?_cons_zero,
    show ({ address := code, jumpAddress := target + nT } : Trampoline).jumpAddress
        = target + nT from rfl]
  rw [if_neg (show ¬ (target + nT < tp) by omega),
    show target + nT - tp = nT + 1 by omega]
  simp only [Option.map_some']
  rw [Option.some.injEq]
  have h5 := copyBytes_read m4 code tp (nT + 1) j (by omega)
  simp only [readByte] at hm4 ⊢
  rw [h5]
  have := hm4 j hj
  omega

/-- C1 (amended): when every displaced instruction is copied verbatim, that
is, the displacement walk meets no 16-bit PC-relative LDR literal at any
instruction start it visits (halfwords inside a 32-bit instruction, such as
the second half of a wide push, are copied without being tested), installing
a hook at a Thumb target and then reverting it restores every byte of the
displacement window. -/
theorem c1_revert_restores_verbatim (m0 : Mem) (target code repl : Nat)
    (hodd : target % 2 = 1)
    (hdisj : unmaskThumb2 target + 14 ≤ code ∨ code + 64 ≤ unmaskThumb2 target)
    (hnoldr : noLdrWalk m0 (unmaskThumb2 target) 10 10 0 = true)
    (hlo : target + 16 < 4294967296)
    (j : Nat) (hj : j < displacementSize target) :
    (installThenRevert m0 ⟨[], []⟩ target code repl).map
        (fun m => readByte m (unmaskThumb2 target + j)) =
      some (readByte m0 (unmaskThumb2 target + j)) := by
  have htp : unmaskThumb2 target = target - 1 := by
    unfold unmaskThumb2; omega
  set tp := unmaskThumb2 target with htpdef
  have htarget : target = tp + 1 := by omega
  have hds : displacementSize target = 10 := c2_thumb_displacement_always_ten target hodd
  rw [hds] at hj
  obtain ⟨m1, nT, heq, h10, h13, _, hpar, hframe1, hcontent1⟩ :=
    copyLoop_verbatim tp code 10 (by omega) (by omega) 10 m0 0 (by omega) (by omega) hnoldr
  have hnTeven : nT % 2 = 0 := hpar
  have hmode : ¬ (target % 2 = 0) := by omega
  have hja : (target + nT) % 4294967296 = target + nT := Nat.mod_eq_of_lt (by omega)
  have hjodd : (target + nT) ||| 1 = target + nT := lor_one_of_odd _ (by omega)
  have hrb : ∀ (mm : Mem),
      (∀ x, x < code + nT → (x < tp ∨ tp + 10 ≤ x) → mm x = m1 x) →
      ∀ jj, jj < 10 → readByte mm (code + jj) = readByte m0 (tp + jj) := by
    intro mm hmm jj hjj
    have hx : mm (code + jj) = m1 (code + jj) := by
      apply hmm
      · omega
      · rcases hdisj with h | h
        · right; omega
        · left; omega
    rw [readByte, hx]
    exact hcontent1 jj (by omega) (by omega)
  unfold installThenRevert interceptorReplace
  rw [if_neg hmode]
  simp only [hds, ← htpdef, heq, hja, hjodd, alignPad, List.nil_append]
  by_cases halign : (code + nT) % 4 = 0
  · simp only [if_pos halign]
    by_cases hsite : tp % 4 ≠ 0
    · simp only [if_pos hsite]
      apply interceptorRevert_readback m0 _ tp nT code target j h10 (by omega) hj htarget hodd
      apply hrb
      intro x hx1 hx2
      rw [placeJump_frame _ _ _ _ (by omega), writeU16_frame _ _ _ _ (by omega),
        writeU32_frame _ _ _ _ (by omega), writeU32_frame _ _ _ _ (by omega)]
    · simp only [if_neg hsite]
      apply interceptorRevert_readback m0 _ tp nT code target j h10 (by omega) hj htarget hodd
      apply hrb
      intro x hx1 hx2
      rw [placeJump_frame _ _ _ _ (by omega),
        writeU32_frame _ _ _ _ (by omega), writeU32_frame _ _ _ _ (by omega)]
  · simp only [if_neg halign]
    by_cases hsite : tp % 4 ≠ 0
    · simp only [if_pos hsite]
      apply interceptorRevert_readback m0 _ tp nT code target j h10 (by omega) hj htarget hodd
      apply hrb
      intro x hx1 hx2
      rw [placeJump_frame _ _ _ _ (by omega), writeU16_frame _ _ _ _ (by omega),
        writeU32_frame _ _ _ _ (by omega), writeU32_frame _ _ _ _ (by omega),
        writeU16_frame _ _ _ _ (by omega)]
    · simp only [if_neg hsite]
      apply interceptorRevert_readback m0 _ tp nT code target j h10 (by omega) hj htarget hodd
      apply hrb
      intro x hx1 hx2
      rw [placeJump_frame _ _ _ _ (by omega),
        writeU32_frame _ _ _ _ (by omega), writeU32_frame _ _ _ _ (by omega),
        writeU16_frame _ _ _ _ (by omega)]

/-- A prologue starting with the 32-bit push.w of r4 to r11 and lr (0xE92D
0x4FF0) followed by Thumb NOP halfwords.  The second halfword 0x4FF0 matches
the 16-bit LDR literal mask, but the walk skips it inside the 32-bit
instruction, so the whole window is copied verbatim. -/
def c1wm : Mem := fun a =>
  if a = 8 then 0x2D
  else if a = 9 then 0xE9
  else if a = 10 then 0xF0
  else if a = 11 then 0x4F
  else if a % 2 = 1 then 0xbf
  else 0

/-- Witness for c1_revert_restores_verbatim at target 9 with the trampoline
at 1000: the walk accepts the push.w prologue although the halfword at byte
offset 2 matches the LDR mask, and that very byte survives install plus
revert. -/
theorem c1_revert_restores_verbatim_witness :
    9 % 2 = 1 ∧ noLdrWalk c1wm (unmaskThumb2 9) 10 10 0 = true ∧
      isLdr (readU16 c1wm (unmaskThumb2 9 + 2)) = true ∧
      (installThenRevert c1wm ⟨[], []⟩ 9 1000 0x90000000).map
          (fun m => readByte m (unmaskThumb2 9 + 2)) =
        some (readByte c1wm (unmaskThumb2 9 + 2)) :=
  ⟨by decide, by decide, by decide,
    c1_revert_restores_verbatim c1wm 9 1000 0x90000000 (by decide) (by decide)
      (by decide) (by decide) 2 (by decide)⟩

/-! ## Framed protocol (crates/da-protocol/src/lib.rs)

Message and Response mirror the protocol enums.  Bodies are encoded with the
postcard wire format the source uses through serde: an enum is its variant
index as a LEB128 varint, unsigned integer fields are LEB128 varints, a byte
slice is its length as a varint followed by the raw bytes, and an optional
field is a 0 byte for None or a 1 byte followed by the value for Some.
The varint decoder bounds the number of continuation bytes exactly as the
postcard readers for u32 and usize do; the final-byte overflow check those
readers additionally perform can never fire on a well-formed encoding of an
in-range value, which is the only situation the round-trip theorems visit. -/

inductive HookId where
  | mtPartGenericRead
deriving Repr, DecidableEq

inductive Message where
  | ack
  | read (addr size : Nat)
  | write (addr : Nat) (data : List Nat)
  | flushCache (addr size : Nat)
  | jump (addr : Nat) (r0 r1 : Option Nat)
  | reset
  | hook (id : HookId)
  | ret
deriving Repr, DecidableEq

inductive NotFoundError where
  | bldrJump
  | mtPartGenericRead
  | usbDlHandler
deriving Repr, DecidableEq

inductive ProtocolError where
  | notSupported
  | notFound (which : NotFoundError)
  | unreachable
deriving Repr, DecidableEq

inductive Response where
  | ack
  | nack (e : ProtocolError)
  | read (data : List Nat)
  | value (v : Nat)
deriving Repr, DecidableEq

/-- LEB128 varint encoder.  The fuel bounds the number of emitted bytes; the
callers pass the postcard maximum for the integer width, which is never
reached by in-range values. -/
def varintEnc : Nat → Nat → List Nat
  | 0, _ => []
  | Nat.succ fuel, n =>
    if n < 128 then [n]
    else (n % 128 + 128) :: varintEnc fuel (n / 128)

/-- LEB128 varint decoder reading at most mb bytes, returning the value and
the unconsumed remainder. -/
def varintDec : Nat → List Nat → Option (Nat × List Nat)
  | 0, _ => none
  | Nat.succ _, [] => none
  | Nat.succ mb, b :: rest =>
    if b < 128 then some (b, rest)
    else
      match varintDec mb rest with
      | some vr => some (b % 128 + 128 * vr.1, vr.2)
      | none => none

/-- Encoder for a u32 field (postcard allows five varint bytes). -/
def encU32 (n : Nat) : List Nat := varintEnc 5 n

/-- Encoder for a usize length (postcard allows ten varint bytes). -/
def encUsize (n : Nat) : List Nat := varintEnc 10 n

/-- Encoder for an optional u32 field. -/
def encOptU32 : Option Nat → List Nat
  | none => [0]
  | some v => 1 :: encU32 v

/-- Postcard body of a protocol Message. -/
def encodeMessage : Message → List Nat
  | .ack => [0]
  | .read a s => 1 :: (encU32 a ++ encU32 s)
  | .write a d => 2 :: (encU32 a ++ encUsize d.length ++ d)
  | .flushCache a s => 3 :: (encU32 a ++ encU32 s)
  | .jump a r0 r1 => 4 :: (encU32 a ++ encOptU32 r0 ++ encOptU32 r1)
  | .reset => [5]
  | .hook _ => [6, 0]
  | .ret => [7]

/-- Postcard body of a protocol Response. -/
def encodeResponse : Response → List Nat
  | .ack => [0]
  | .nack .notSupported => [1, 0]
  | .nack (.notFound .bldrJump) => [1, 1, 0]
  | .nack (.notFound .mtPartGenericRead) => [1, 1, 1]
  | .nack (.notFound .usbDlHandler) => [1, 1, 2]
  | .nack .unreachable => [1, 2]
  | .read d => 2 :: (encUsize d.length ++ d)
  | .value v => 3 :: encU32 v

/-- Decoder for a length-prefixed byte blob. -/
def decBytes (l : List Nat) : Option (List Nat × List Nat) :=
  match varintDec 10 l with
  | some nr =>
    if nr.1 ≤ nr.2.length then some (nr.2.take nr.1, nr.2.drop nr.1)
    else none
  | none => none

/-- Decoder for an optional u32 field. -/
def decOptU32 (l : List Nat) : Option (Option Nat × List Nat) :=
  match l with
  | 0 :: rest => some (none, rest)
  | 1 :: rest =>
    match varintDec 5 rest with
    | some vr => some (some vr.1, vr.2)
    | none => none
  | _ => none

/-- Body decoder for a protocol Message given its already-read variant tag. -/
def decodeMessageBody (tag : Nat) (r : List Nat) : Option (Message × List Nat) :=
  if tag = 0 then some (.ack, r)
  else if tag = 1 then
    match varintDec 5 r with
    | some ar =>
      match varintDec 5 ar.2 with
      | some sr => some (.read ar.1 sr.1, sr.2)
      | none => none
    | none => none
  else if tag = 2 then
    match varintDec 5 r with
    | some ar =>
      match decBytes ar.2 with
      | some dr => some (.write ar.1 dr.1, dr.2)
      | none => none
    | none => none
  else if tag = 3 then
    match varintDec 5 r with
    | some ar =>
      match varintDec 5 ar.2 with
      | some sr => some (.flushCache ar.1 sr.1, sr.2)
      | none => none
    | none => none
  else if tag = 4 then
    match varintDec 5 r with
    | some ar =>
      match decOptU32 ar.2 with
      | some r0r =>
        match decOptU32 r0r.2 with
        | some r1r => some (.jump ar.1 r0r.1 r1r.1, r1r.2)
        | none => none
      | none => none
    | none => none
  else if tag = 5 then some (.reset, r)
  else if tag = 6 then
    match varintDec 5 r with
    | some hr => if hr.1 = 0 then some (.hook .mtPartGenericRead, hr.2) else none
    | none => none
  else if tag = 7 then some (.ret, r)
  else none

/-- Postcard decoder for a protocol Message, returning the unread remainder
of the buffer as postcard from_bytes leaves trailing bytes untouched. -/
def decodeMessage (l : List Nat) : Option (Message × List Nat) :=
  match varintDec 5 l with
  | some tr => decodeMessageBody tr.1 tr.2
  | none => none

/-- Body decoder for a protocol error given its variant tag. -/
def decodeProtocolErrorBody (tag : Nat) (r : List Nat) :
    Option (ProtocolError × List Nat) :=
  if tag = 0 then some (.notSupported, r)
  else if tag = 1 then
    match varintDec 5 r with
    | some wr =>
      if wr.1 = 0 then some (.notFound .bldrJump, wr.2)
      else if wr.1 = 1 then some (.notFound .mtPartGenericRead, wr.2)
      else if wr.1 = 2 then some (.notFound .usbDlHandler, wr.2)
      else none
    | none => none
  else if tag = 2 then some (.unreachable, r)
  else none

/-- Body decoder for a protocol Response given its already-read variant tag. -/
def decodeResponseBody (tag : Nat) (r : List Nat) : Option (Response × List Nat) :=
  if tag = 0 then some (.ack, r)
  else if tag = 1 then
    match varintDec 5 r with
    | some er =>
      match decodeProtocolErrorBody er.1 er.2 with
      | some pr => some (.nack pr.1, pr.2)
      | none => none
    | none => none
  else if tag = 2 then
    match decBytes r with
    | some dr => some (.read dr.1, dr.2)
    | none => none
  else if tag = 3 then
    match varintDec 5 r with
    | some vr => some (.value vr.1, vr.2)
    | none => none
  else none

/-- Postcard decoder for a protocol Response. -/
def decodeResponse (l : List Nat) : Option (Response × List Nat) :=
  match varintDec 5 l with
  | some tr => decodeResponseBody tr.1 tr.2
  | none => none

/-- Big-endian four-byte encoding of a u32, as write_u32_be. -/
def be32 (n : Nat) : List Nat :=
  [n / 16777216 % 256, n / 65536 % 256, n / 256 % 256, n % 256]

/-- Big-endian value of a byte list, as read_u32_be assembles it. -/
def be32val (l : List Nat) : Nat :=
  l.foldl (fun acc b => acc * 256 + b % 256) 0

/-- Outcome of a device or host read: a successful value, a transport error,
a postcard decode error, or a Rust panic. -/
inductive ReadOutcome (α : Type) where
  | ok (a : α)
  | ioError
  | decodeError
  | panicked
deriving Repr, DecidableEq

/-- Protocol::write_data for a Message over a buffer of size N: serialize into
the buffer (failing when the body does not fit), then emit the big-endian u32
length followed by the body. -/
def writeMessageFrame (N : Nat) (msg : Message) : Option (List Nat) :=
  let body := encodeMessage msg
  if body.length ≤ N then some (be32 (body.length % 4294967296) ++ body) else none

/-- Protocol::write_data for a Response over a buffer of size N. -/
def writeResponseFrame (N : Nat) (resp : Response) : Option (List Nat) :=
  let body := encodeResponse resp
  if body.length ≤ N then some (be32 (body.length % 4294967296) ++ body) else none

/-- Protocol::read_data up to the deserialization step: read the big-endian
length, then read that many bytes into the start of the N-byte buffer.  The
source slices the buffer as buf up to size before reading, which is out of
bounds whenever size exceeds N: that is the modelled panic.  The rest of the
buffer keeps its previous contents, zeros here as in a fresh protocol. -/
def readDataBytes (N : Nat) (stream : List Nat) : ReadOutcome (List Nat) :=
  if stream.length < 4 then .ioError
  else
    let size := be32val (stream.take 4)
    let rest := stream.drop 4
    if N < size then .panicked
    else if rest.length < size then .ioError
    else .ok (rest.take size ++ List.replicate (N - size) 0)

/-- Protocol::read_message: frame read followed by postcard deserialization
of the whole buffer. -/
def readMessageFrame (N : Nat) (stream : List Nat) : ReadOutcome Message :=
  match readDataBytes N stream with
  | .ok buf =>
    match decodeMessage buf with
    | some mr => .ok mr.1
    | none => .decodeError
  | .ioError => .ioError
  | .decodeError => .decodeError
  | .panicked => .panicked

/-- Protocol::read_response: frame read followed by postcard deserialization
of the whole buffer. -/
def readResponseFrame (N : Nat) (stream : List Nat) : ReadOutcome Response :=
  match readDataBytes N stream with
  | .ok buf =>
    match decodeResponse buf with
    | some rr => .ok rr.1
    | none => .decodeError
  | .ioError => .ioError
  | .decodeError => .decodeError
  | .panicked => .panicked

/-- In-range side condition for an optional u32 field. -/
def OptWF : Option Nat → Prop
  | none => True
  | some v => v < 4294967296

instance : DecidablePred OptWF := fun o => by
  cases o <;> simp only [OptWF] <;> infer_instance

/-- In-range side conditions a Rust Message satisfies by construction:
u32 fields are below two to the 32 and a slice length fits a u32. -/
def MessageWF : Message → Prop
  | .ack => True
  | .read a s => a < 4294967296 ∧ s < 4294967296
  | .write a d => a < 4294967296 ∧ d.length < 4294967296
  | .flushCache a s => a < 4294967296 ∧ s < 4294967296
  | .jump a r0 r1 => a < 4294967296 ∧ OptWF r0 ∧ OptWF r1
  | .reset => True
  | .hook _ => True
  | .ret => True

instance : DecidablePred MessageWF := fun m => by
  cases m <;> simp only [MessageWF] <;> infer_instance

/-- In-range side conditions a Rust Response satisfies by construction. -/
def ResponseWF : Response → Prop
  | .ack => True
  | .nack _ => True
  | .read d => d.length < 4294967296
  | .value v => v < 4294967296

instance : DecidablePred ResponseWF := fun r => by
  cases r <;> simp only [ResponseWF] <;> infer_instance

theorem varint_roundtrip : ∀ (mb n : Nat) (rest : List Nat), 0 < mb → n < 128 ^ mb →
    varintDec mb (varintEnc mb n ++ rest) = some (n, rest) := by
  intro mb
  induction mb with
  | zero => intro n rest h; omega
  | succ mb ih =>
    intro n rest _ hn
    by_cases h : n < 128
    · simp [varintEnc, varintDec, h]
    · have hmb : 0 < mb := by
        rcases Nat.eq_zero_or_pos mb with h0 | h0
        · subst h0; simp [pow_succ] at hn; omega
        · exact h0
      have hdiv : n / 128 < 128 ^ mb := by
        rw [Nat.div_lt_iff_lt_mul (by norm_num)]
        calc n < 128 ^ (mb + 1) := hn
        _ = 128 ^ mb * 128 := by rw [pow_succ]
      simp only [varintEnc, if_neg h, List.cons_append, varintDec]
      rw [if_neg (by omega), ih (n / 128) rest hmb hdiv]
      simp only [Nat.add_mod_right, Option.some.injEq, Prod.mk.injEq]
      exact ⟨by omega, trivial⟩

theorem varintDec_small (mb b : Nat) (rest : List Nat) (h : b < 128) (hmb : 0 < mb) :
    varintDec mb (b :: rest) = some (b, rest) := by
  cases mb with
  | zero => omega
  | succ k => simp [varintDec, h]

theorem decBytes_enc (d rest : List Nat) (hd : d.length < 4294967296) :
    decBytes (encUsize d.length ++ (d ++ rest)) = some (d, rest) := by
  unfold decBytes encUsize
  rw [varint_roundtrip 10 d.length (d ++ rest) (by norm_num) (by
    calc d.length < 4294967296 := hd
    _ < 128 ^ 10 := by norm_num)]
  simp only [List.length_append, if_pos (by omega : d.length ≤ d.length + rest.length)]
  rw [List.take_left, List.drop_left]

theorem decOptU32_enc (o : Option Nat) (rest : List Nat) (ho : OptWF o) :
    decOptU32 (encOptU32 o ++ rest) = some (o, rest) := by
  cases o with
  | none => simp [encOptU32, decOptU32]
  | some v =>
    simp only [encOptU32, encU32, List.cons_append, decOptU32]
    rw [varint_roundtrip 5 v rest (by norm_num) (by
      simp only [OptWF] at ho
      calc v < 4294967296 := ho
      _ < 128 ^ 5 := by norm_num)]

theorem decodeMessage_enc (m : Message) (rest : List Nat) (hm : MessageWF m) :
    decodeMessage (encodeMessage m ++ rest) = some (m, rest) := by
  have h32 : (4294967296 : Nat) < 128 ^ 5 := by norm_num
  cases m with
  | ack =>
    simp only [encodeMessage, List.cons_append, List.nil_append, decodeMessage]
    rw [varintDec_small 5 0 rest (by norm_num) (by norm_num)]
    rfl
  | read a s =>
    obtain ⟨ha, hs⟩ := hm
    simp only [encodeMessage, encU32, List.cons_append, List.append_assoc, decodeMessage]
    rw [varintDec_small 5 1 _ (by norm_num) (by norm_num)]
    dsimp only
    simp only [decodeMessageBody]
    norm_num
    rw [varint_roundtrip 5 a _ (by norm_num) (lt_trans ha h32)]
    dsimp only
    rw [varint_roundtrip 5 s rest (by norm_num) (lt_trans hs h32)]
  | write a d =>
    obtain ⟨ha, hd⟩ := hm
    simp only [encodeMessage, encU32, List.cons_append, List.append_assoc, decodeMessage]
    rw [varintDec_small 5 2 _ (by norm_num) (by norm_num)]
    dsimp only
    simp only [decodeMessageBody]
    norm_num
    rw [varint_roundtrip 5 a _ (by norm_num) (lt_trans ha h32)]
    dsimp only
    rw [decBytes_enc d rest hd]
  | flushCache a s =>
    obtain ⟨ha, hs⟩ := hm
    simp only [encodeMessage, encU32, List.cons_append, List.append_assoc, decodeMessage]
    rw [varintDec_small 5 3 _ (by norm_num) (by norm_num)]
    dsimp only
    simp only [decodeMessageBody]
    norm_num
    rw [varint_roundtrip 5 a _ (by norm_num) (lt_trans ha h32)]
    dsimp only
    rw [varint_roundtrip 5 s rest (by norm_num) (lt_trans hs h32)]
  | jump a r0 r1 =>
    obtain ⟨ha, hr0, hr1⟩ := hm
    simp only [encodeMessage, encU32, List.cons_append, List.append_assoc, decodeMessage]
    rw [varintDec_small 5 4 _ (by norm_num) (by norm_num)]
    dsimp only
    simp only [decodeMessageBody]
    norm_num
    rw [varint_roundtrip 5 a _ (by norm_num) (lt_trans ha h32)]
    dsimp only
    rw [decOptU32_enc r0 _ hr0]
    dsimp only
    rw [decOptU32_enc r1 rest hr1]
  | reset =>
    simp only [encodeMessage, List.cons_append, List.nil_append, decodeMessage]
    rw [varintDec_small 5 5 rest (by norm_num) (by norm_num)]
    rfl
  | hook id =>
    cases id
    simp only [encodeMessage, List.cons_append, List.nil_append, decodeMessage]
    rw [varintDec_small 5 6 _ (by norm_num) (by norm_num)]
    dsimp only
    simp only [decodeMessageBody]
    norm_num
    rw [varintDec_small 5 0 rest (by norm_num) (by norm_num)]
    rfl
  | ret =>
    simp only [encodeMessage, List.cons_append, List.nil_append, decodeMessage]
    rw [varintDec_small 5 7 rest (by norm_num) (by norm_num)]
    rfl

theorem decodeResponse_enc (r : Response) (rest : List Nat) (hr : ResponseWF r) :
    decodeResponse (encodeResponse r ++ rest) = some (r, rest) := by
  have h32 : (4294967296 : Nat) < 128 ^ 5 := by norm_num
  cases r with
  | ack =>
    simp only [encodeResponse, List.cons_append, List.nil_append, decodeResponse]
    rw [varintDec_small 5 0 rest (by norm_num) (by norm_num)]
    rfl
  | nack e =>
    cases e with
    | notSupported =>
      simp only [encodeResponse, List.cons_append, List.nil_append, decodeResponse]
      rw [varintDec_small 5 1 _ (by norm_num) (by norm_num)]
      dsimp only
      simp only [decodeResponseBody]
      norm_num
      rw [varintDec_small 5 0 rest (by norm_num) (by norm_num)]
      rfl
    | notFound w =>
      cases w <;>
        (simp only [encodeResponse, List.cons_append, List.nil_append, decodeResponse]
         rw [varintDec_small 5 1 _ (by norm_num) (by norm_num)]
         dsimp only
         simp only [decodeResponseBody]
         norm_num
         rw [varintDec_small 5 1 _ (by norm_num) (by norm_num)]
         dsimp only
         simp only [decodeProtocolErrorBody]
         norm_num
         rw [varintDec_small 5 _ rest (by norm_num) (by norm_num)]
         rfl)
    | unreachable =>
      simp only [encodeResponse, List.cons_append, List.nil_append, decodeResponse]
      rw [varintDec_small 5 1 _ (by norm_num) (by norm_num)]
      dsimp only
      simp only [decodeResponseBody]
      norm_num
      rw [varintDec_small 5 2 rest (by norm_num) (by norm_num)]
      rfl
  | read d =>
    simp only [encodeResponse, List.cons_append, List.append_assoc, decodeResponse]
    rw [varintDec_small 5 2 _ (by norm_num) (by norm_num)]
    dsimp only
    simp only [decodeResponseBody]
    norm_num
    rw [decBytes_enc d rest hr]
  | value v =>
    simp only [encodeResponse, encU32, List.cons_append, decodeResponse]
    rw [varintDec_small 5 3 _ (by norm_num) (by norm_num)]
    dsimp only
    simp only [decodeResponseBody]
    norm_num
    rw [varint_roundtrip 5 v rest (by norm_num) (lt_trans hr h32)]

theorem be32val_be32 (n : Nat) (h : n < 4294967296) : be32val (be32 n) = n := by
  simp [be32, be32val]
  omega

theorem readDataBytes_frame (N : Nat) (body : List Nat) (hN : N < 4294967296)
    (hlen : body.length ≤ N) :
    readDataBytes N (be32 (body.length % 4294967296) ++ body) =
      .ok (body ++ List.replicate (N - body.length) 0) := by
  have hb : body.length % 4294967296 = body.length := Nat.mod_eq_of_lt (by omega)
  rw [hb]
  have hfour : (be32 body.length).length = 4 := by simp [be32]
  unfold readDataBytes
  rw [if_neg (by simp [be32])]
  rw [List.take_left' hfour, List.drop_left' hfour, be32val_be32 _ (by omega)]
  rw [if_neg (by omega), if_neg (by omega), List.take_length]

/-- C3: framed round trip.  For every in-range Message and Response, writing
it as a length-prefixed postcard frame into a buffer of size N and reading the
frame back through the same buffer yields the original value. -/
theorem c3_frame_roundtrip (N : Nat) (hN : N < 4294967296) :
    (∀ (m : Message) (s : List Nat), MessageWF m → writeMessageFrame N m = some s →
      readMessageFrame N s = .ok m) ∧
    (∀ (r : Response) (s : List Nat), ResponseWF r → writeResponseFrame N r = some s →
      readResponseFrame N s = .ok r) := by
  constructor
  · intro m s hm hw
    unfold writeMessageFrame at hw
    by_cases hlen : (encodeMessage m).length ≤ N
    · rw [if_pos hlen, Option.some.injEq] at hw
      subst hw
      unfold readMessageFrame
      rw [readDataBytes_frame N _ hN hlen]
      dsimp only
      rw [decodeMessage_enc m _ hm]
    · rw [if_neg hlen] at hw
      exact absurd hw (by simp)
  · intro r s hr hw
    unfold writeResponseFrame at hw
    by_cases hlen : (encodeResponse r).length ≤ N
    · rw [if_pos hlen, Option.some.injEq] at hw
      subst hw
      unfold readResponseFrame
      rw [readDataBytes_frame N _ hN hlen]
      dsimp only
      rw [decodeResponse_enc r _ hr]
    · rw [if_neg hlen] at hw
      exact absurd hw (by simp)

/-- Witness for c3_frame_roundtrip: the Write message of spec scenario 5 and
an Ack response round-trip through a 2024-byte buffer. -/
theorem c3_frame_roundtrip_witness :
    readMessageFrame 2024
        (be32 ((encodeMessage (.write 0x40000000 [0xAA, 0xBB, 0xCC, 0xDD])).length
            % 4294967296) ++ encodeMessage (.write 0x40000000 [0xAA, 0xBB, 0xCC, 0xDD])) =
      .ok (.write 0x40000000 [0xAA, 0xBB, 0xCC, 0xDD]) ∧
    readResponseFrame 2024
        (be32 ((encodeResponse .ack).length % 4294967296) ++ encodeResponse .ack) =
      .ok .ack :=
  ⟨(c3_frame_roundtrip 2024 (by norm_num)).1
      (.write 0x40000000 [0xAA, 0xBB, 0xCC, 0xDD]) _ (by decide)
      (by decide),
    (c3_frame_roundtrip 2024 (by norm_num)).2 .ack _ (by decide) (by decide)⟩

/-- C10: a frame whose big-endian length prefix (3072 here) exceeds the buffer
size N equal to 2048 makes read_message and read_response slice the buffer out
of bounds, a panic, rather than return an error value. -/
theorem c10_oversized_length_panics :
    be32val [0, 0, 12, 0] = 3072 ∧ 2048 < 3072 ∧
      readMessageFrame 2048 [0, 0, 12, 0] = .panicked ∧
      readResponseFrame 2048 [0, 0, 12, 0] = .panicked := by
  decide

/-! ## Host bulk upload (crates/da-boot/src/rpc.rs) -/

/-- Recommended read and write chunk size, 2048 minus the larger of the sizes
of Message and Response.  On the 64-bit host both enums measure 24 bytes under
their repr(u8) layout, dominated by the variants carrying a 16-byte slice
reference next to a u32 behind a one-byte tag. -/
def RW_BUFFER_SIZE : Nat := 2048 - 24

/-- Slice chunking as data.chunks(k): full chunks of k elements followed by a
final shorter chunk for the remainder.  The fuel equals the list length at the
top call; every step consumes at least one element when k is positive, so the
fuel never runs out there, and chunks of a positive k is what the source
evaluates. -/
def chunksOfGo (k : Nat) : Nat → List Nat → List (List Nat)
  | _, [] => []
  | 0, _ :: _ => []
  | Nat.succ f, a :: l => (a :: l).take k :: chunksOfGo k f ((a :: l).drop k)

/-- Slice chunking entry point. -/
def chunksOf (k : Nat) (l : List Nat) : List (List Nat) :=
  chunksOfGo k l.length l

/-- Typed failure of HostExtensions::upload. -/
inductive UploadError where
  | chunkRejected (i : Nat)
  | flushRejected (i : Nat)
deriving Repr, DecidableEq

/-- The per-chunk loop of HostExtensions::upload.  The device is modelled as
the predicate resp giving, for the n-th response read, whether it is a Nack;
the function returns the Write and FlushCache messages sent, in order, and the
error if a Nack aborted the loop. -/
def uploadGo (k addr : Nat) (resp : Nat → Bool) :
    List (List Nat) → Nat → Nat → List Message × Option UploadError
  | [], _, _ => ([], none)
  | c :: rest, i, r =>
    let a := (addr + (i * k) % 4294967296) % 4294967296
    if resp r then ([Message.write a c], some (.chunkRejected i))
    else if resp (r + 1) then
      ([Message.write a c, Message.flushCache a (c.length % 4294967296)],
        some (.flushRejected i))
    else
      let t := uploadGo k addr resp rest (i + 1) (r + 2)
      (Message.write a c :: Message.flushCache a (c.length % 4294967296) :: t.1, t.2)

/-- HostExtensions::upload over a byte payload. -/
def upload (k addr : Nat) (data : List Nat) (resp : Nat → Bool) :
    List Message × Option UploadError :=
  uploadGo k addr resp (chunksOf k data) 0 0

/-- Frame sequence claim C4 predicts for a fully acknowledged upload: every
Write of a chunk is followed by a FlushCache of the full chunk size k. -/
def c4ClaimFrames (k addr : Nat) (data : List Nat) : List Message :=
  (List.enum (chunksOf k data)).flatMap fun ic =>
    [Message.write ((addr + (ic.1 * k) % 4294967296) % 4294967296) ic.2,
     Message.flushCache ((addr + (ic.1 * k) % 4294967296) % 4294967296) k]

/-- Frame sequence the code actually sends on a fully acknowledged upload:
the FlushCache size is the length of the chunk just written. -/
def c4Frames (k addr : Nat) (data : List Nat) : List Message :=
  (List.enum (chunksOf k data)).flatMap fun ic =>
    [Message.write ((addr + (ic.1 * k) % 4294967296) % 4294967296) ic.2,
     Message.flushCache ((addr + (ic.1 * k) % 4294967296) % 4294967296)
       (ic.2.length % 4294967296)]

/-- C4 counterexample: uploading a one-byte payload sends FlushCache with size
one, not the claimed chunk size K equal to RW_BUFFER_SIZE. -/
theorem c4_counterexample :
    upload RW_BUFFER_SIZE 0 [170] (fun _ => false) =
      ([Message.write 0 [170], Message.flushCache 0 1], none) ∧
    c4ClaimFrames RW_BUFFER_SIZE 0 [170] =
      [Message.write 0 [170], Message.flushCache 0 RW_BUFFER_SIZE] ∧
    (1 : Nat) ≠ RW_BUFFER_SIZE := by
  decide

theorem uploadGo_allAck (k addr : Nat) (resp : Nat → Bool)
    (hresp : ∀ n, resp n = false) :
    ∀ (chunks : List (List Nat)) (i r : Nat),
      uploadGo k addr resp chunks i r =
        ((List.enumFrom i chunks).flatMap fun ic =>
          [Message.write ((addr + (ic.1 * k) % 4294967296) % 4294967296) ic.2,
           Message.flushCache ((addr + (ic.1 * k) % 4294967296) % 4294967296)
             (ic.2.length % 4294967296)], none) := by
  intro chunks
  induction chunks with
  | nil => intro i r; rfl
  | cons c rest ih =>
    intro i r
    have e := ih (i + 1) (r + 2)
    simp only [uploadGo, hresp, Bool.false_eq_true, if_false, e]
    simp [List.enumFrom]

/-- A first Nack at any position aborts the loop there: when the first n
chunks are fully acknowledged, a Nack on chunk n's Write acknowledgement
stops after that Write with the chunk-rejected error, and a Nack on chunk
n's FlushCache acknowledgement stops after that FlushCache with the
flush-rejected error; the messages sent are exactly the frames of the
acknowledged prefix plus those of the aborted chunk. -/
theorem uploadGo_nackAt (k addr : Nat) (resp : Nat → Bool) :
    ∀ (chunks : List (List Nat)) (n i r : Nat) (c : List Nat),
      chunks.get? n = some c →
      (∀ j, j < 2 * n → resp (r + j) = false) →
      (resp (r + 2 * n) = true →
        uploadGo k addr resp chunks i r =
          ((List.enumFrom i (chunks.take n)).flatMap (fun ic =>
            [Message.write ((addr + (ic.1 * k) % 4294967296) % 4294967296) ic.2,
             Message.flushCache ((addr + (ic.1 * k) % 4294967296) % 4294967296)
               (ic.2.length % 4294967296)]) ++
           [Message.write ((addr + ((i + n) * k) % 4294967296) % 4294967296) c],
           some (.chunkRejected (i + n)))) ∧
      (resp (r + 2 * n) = false → resp (r + 2 * n + 1) = true →
        uploadGo k addr resp chunks i r =
          ((List.enumFrom i (chunks.take n)).flatMap (fun ic =>
            [Message.write ((addr + (ic.1 * k) % 4294967296) % 4294967296) ic.2,
             Message.flushCache ((addr + (ic.1 * k) % 4294967296) % 4294967296)
               (ic.2.length % 4294967296)]) ++
           [Message.write ((addr + ((i + n) * k) % 4294967296) % 4294967296) c,
            Message.flushCache ((addr + ((i + n) * k) % 4294967296) % 4294967296)
              (c.length % 4294967296)],
           some (.flushRejected (i + n)))) := by
  intro chunks
  induction chunks with
  | nil =>
    intro n i r c hget
    exact absurd hget (by simp)
  | cons c0 rest ih =>
    intro n i r c hget hacks
    cases n with
    | zero =>
      simp only [List.get?_cons_zero, Option.some.injEq] at hget
      subst hget
      constructor
      · intro hnack
        rw [Nat.mul_zero, Nat.add_zero] at hnack
        simp only [uploadGo, hnack, if_pos]
        simp [List.enumFrom]
      · intro hack hnack
        rw [Nat.mul_zero, Nat.add_zero] at hack hnack
        simp only [uploadGo, hack, hnack, Bool.false_eq_true, if_false, if_pos]
        simp [List.enumFrom]
    | succ m =>
      simp only [List.get?_cons_succ] at hget
      have h0 : resp r = false := by
        have := hacks 0 (by omega)
        simpa using this
      have h1 : resp (r + 1) = false := hacks 1 (by omega)
      have hacks2 : ∀ j, j < 2 * m → resp (r + 2 + j) = false := by
        intro j hj
        have := hacks (j + 2) (by omega)
        rwa [show r + (j + 2) = r + 2 + j from by omega] at this
      obtain ⟨ih1, ih2⟩ := ih m (i + 1) (r + 2) c hget hacks2
      have hidx : r + 2 + 2 * m = r + 2 * (m + 1) := by ring
      constructor
      · intro hnack
        rw [← hidx] at hnack
        have e := ih1 hnack
        simp only [uploadGo, h0, h1, Bool.false_eq_true, if_false, e]
        simp [List.enumFrom, show i + 1 + m = i + (m + 1) from by omega]
      · intro hack hnack
        rw [← hidx] at hack hnack
        have e := ih2 hack hnack
        simp only [uploadGo, h0, h1, Bool.false_eq_true, if_false, e]
        simp [List.enumFrom, show i + 1 + m = i + (m + 1) from by omega]

theorem chunksOfGo_spec (k : Nat) (hk : 0 < k) :
    ∀ (fuel : Nat) (l : List Nat), l.length ≤ fuel →
      (chunksOfGo k fuel l).flatten = l ∧
      (∀ c ∈ (chunksOfGo k fuel l).dropLast, c.length = k) ∧
      (l ≠ [] → chunksOfGo k fuel l ≠ []) ∧
      (∀ last, (chunksOfGo k fuel l).getLast? = some last →
        last.length = if l.length % k = 0 then k else l.length % k) := by
  intro fuel
  induction fuel with
  | zero =>
    intro l hl
    have : l = [] := by
      cases l with
      | nil => rfl
      | cons a t => simp at hl
    subst this
    refine ⟨rfl, by simp [chunksOfGo], by simp, by simp [chunksOfGo]⟩
  | succ f ih =>
    intro l hl
    cases l with
    | nil => exact ⟨rfl, by simp [chunksOfGo], by simp, by simp [chunksOfGo]⟩
    | cons a t =>
      simp only [chunksOfGo]
      by_cases hshort : (a :: t).length ≤ k
      · have hdrop : (a :: t).drop k = [] := by
          rw [List.drop_eq_nil_iff]
          omega
        have htake : (a :: t).take k = a :: t := List.take_of_length_le hshort
        rw [hdrop, htake]
        have hnil : chunksOfGo k f [] = [] := by cases f <;> rfl
        rw [hnil]
        refine ⟨by simp, by simp, by simp, ?_⟩
        intro last hlast
        simp only [List.getLast?_singleton, Option.some.injEq] at hlast
        subst hlast
        have hlen : (a :: t).length ≤ k := hshort
        by_cases hmod : (a :: t).length % k = 0
        · rw [if_pos hmod]
          have : (a :: t).length ≠ 0 := by simp
          have : (a :: t).length = k := by
            rcases Nat.lt_or_ge (a :: t).length k with hlt | hge
            · exact absurd (Nat.mod_eq_of_lt hlt ▸ hmod) this
            · omega
          omega
        · rw [if_neg hmod]
          have hlt : (a :: t).length < k := by
            rcases Nat.lt_or_ge (a :: t).length k with hlt | hge
            · exact hlt
            · have : (a :: t).length = k := by omega
              exact absurd (by rw [this, Nat.mod_self]) hmod
          rw [Nat.mod_eq_of_lt hlt]
      · push_neg at hshort
        have hlen2 : ((a :: t).drop k).length ≤ f := by
          simp only [List.length_drop]
          simp only [List.length_cons] at hl ⊢
          omega
        obtain ⟨ihj, ihd, ihn, ihl⟩ := ih ((a :: t).drop k) hlen2
        have hdropne : (a :: t).drop k ≠ [] := by
          rw [← List.length_pos_iff_ne_nil, List.length_drop]
          simp only [List.length_cons] at hshort ⊢
          omega
        have hchne : chunksOfGo k f ((a :: t).drop k) ≠ [] := ihn hdropne
        have htklen : ((a :: t).take k).length = k := by
          rw [List.length_take]
          omega
        have hmodshift : (a :: t).length % k = ((a :: t).length - k) % k := by
          conv_lhs => rw [show (a :: t).length = ((a :: t).length - k) + k from by omega]
          rw [Nat.add_mod_right]
        refine ⟨?_, ?_, by simp, ?_⟩
        · rw [List.flatten_cons, ihj, List.take_append_drop]
        · intro c hc
          rcases List.exists_cons_of_ne_nil hchne with ⟨y, ys, hys⟩
          rw [hys] at hc
          rw [hys] at ihd
          rw [List.dropLast_cons₂, List.mem_cons] at hc
          rcases hc with hc | hc
          · rw [hc]; exact htklen
          · exact ihd c hc
        · intro last hlast
          rcases List.exists_cons_of_ne_nil hchne with ⟨y, ys, hys⟩
          rw [hys, List.getLast?_cons_cons] at hlast
          rw [hys] at ihl
          have hres := ihl last hlast
          simp only [List.length_drop] at hres
          rw [hmodshift]
          exact hres

/-- C4 (amended): a fully acknowledged upload sends, per chunk in order, a
Write of the chunk at addr plus chunk index times k followed by a FlushCache
of that chunk's own length (k for every chunk except a trailing partial one);
the chunks partition the payload, all but the last have length exactly k, the
last has the remainder length when k does not divide the payload; a Nack on
the first chunk aborts the upload with a reported error after the single
Write; and in general the first Nack, wherever it occurs, aborts the upload
with a reported error naming the chunk: on chunk n's Write acknowledgement
right after that Write, on chunk n's FlushCache acknowledgement right after
that FlushCache, with exactly the frames of the acknowledged prefix sent
before it. -/
theorem c4_upload_chunking (k addr : Nat) (data : List Nat) (resp : Nat → Bool)
    (hk : 0 < k) :
    ((∀ n, resp n = false) → upload k addr data resp = (c4Frames k addr data, none)) ∧
    (chunksOf k data).flatten = data ∧
    (∀ c ∈ (chunksOf k data).dropLast, c.length = k) ∧
    (data ≠ [] → chunksOf k data ≠ []) ∧
    (∀ last, (chunksOf k data).getLast? = some last →
      last.length = if data.length % k = 0 then k else data.length % k) ∧
    (∀ c cs, chunksOf k data = c :: cs → resp 0 = true →
      upload k addr data resp =
        ([Message.write (addr % 4294967296) c], some (.chunkRejected 0))) ∧
    (∀ n c, (chunksOf k data).get? n = some c →
      (∀ j, j < 2 * n → resp j = false) → resp (2 * n) = true →
      upload k addr data resp =
        ((List.enumFrom 0 ((chunksOf k data).take n)).flatMap (fun ic =>
          [Message.write ((addr + (ic.1 * k) % 4294967296) % 4294967296) ic.2,
           Message.flushCache ((addr + (ic.1 * k) % 4294967296) % 4294967296)
             (ic.2.length % 4294967296)]) ++
         [Message.write ((addr + (n * k) % 4294967296) % 4294967296) c],
         some (.chunkRejected n))) ∧
    (∀ n c, (chunksOf k data).get? n = some c →
      (∀ j, j < 2 * n → resp j = false) → resp (2 * n) = false →
      resp (2 * n + 1) = true →
      upload k addr data resp =
        ((List.enumFrom 0 ((chunksOf k data).take n)).flatMap (fun ic =>
          [Message.write ((addr + (ic.1 * k) % 4294967296) % 4294967296) ic.2,
           Message.flushCache ((addr + (ic.1 * k) % 4294967296) % 4294967296)
             (ic.2.length % 4294967296)]) ++
         [Message.write ((addr + (n * k) % 4294967296) % 4294967296) c,
          Message.flushCache ((addr + (n * k) % 4294967296) % 4294967296)
            (c.length % 4294967296)],
         some (.flushRejected n))) := by
  obtain ⟨hjoin, hdrop, hne, hlast⟩ :=
    chunksOfGo_spec k hk data.length data (le_refl _)
  refine ⟨?_, hjoin, hdrop, hne, hlast, ?_, ?_, ?_⟩
  · intro hresp
    unfold upload c4Frames
    exact uploadGo_allAck k addr resp hresp (chunksOf k data) 0 0
  · intro c cs hcc hr0
    unfold upload
    rw [hcc]
    simp only [uploadGo, hr0, if_pos]
    simp
  · intro n c hget hacks hnack
    have h := (uploadGo_nackAt k addr resp (chunksOf k data) n 0 0 c hget
      (fun j hj => by rw [Nat.zero_add]; exact hacks j hj)).1
      (by rw [Nat.zero_add]; exact hnack)
    rw [Nat.zero_add] at h
    exact h
  · intro n c hget hacks hack hnack
    have h := (uploadGo_nackAt k addr resp (chunksOf k data) n 0 0 c hget
      (fun j hj => by rw [Nat.zero_add]; exact hacks j hj)).2
      (by rw [Nat.zero_add]; exact hack)
      (by rw [Nat.zero_add]; exact hnack)
    rw [Nat.zero_add] at h
    exact h

/-- Witness for c4_upload_chunking: a one-byte payload uploaded with the
constant chunk size and an always-acknowledging device, and a two-chunk
upload whose device rejects the second FlushCache, aborting mid-upload with
the flush-rejected error for chunk one. -/
theorem c4_upload_chunking_witness :
    0 < RW_BUFFER_SIZE ∧
      upload RW_BUFFER_SIZE 0 [170] (fun _ => false) =
        (c4Frames RW_BUFFER_SIZE 0 [170], none) ∧
      upload 1 0 [170, 171] (fun n => n == 3) =
        ([Message.write 0 [170], Message.flushCache 0 1,
          Message.write 1 [171], Message.flushCache 1 1],
         some (.flushRejected 1)) :=
  ⟨by decide,
    (c4_upload_chunking RW_BUFFER_SIZE 0 [170] (fun _ => false) (by decide)).1
      (fun _ => rfl),
    by
      have h := (c4_upload_chunking 1 0 [170, 171] (fun n => n == 3)
        (by decide)).2.2.2.2.2.2.2 1 [171] (by decide) (by decide) (by decide)
        (by decide)
      rw [h]
      decide⟩

/-! ## DA container parser (crates/da-parser/src/da/ll.rs and hl.rs)

The low-level records decode with the bincode fixed-int little-endian
configuration; a byte list stands for the input file.  Rust slice expressions
of the form data from start onward panic when start exceeds the length, and
bincode reports a typed decode error when the remaining bytes are too few;
both are distinguished below.  The crate root that feeds the low-level
records into DA::parse is not under src; following the layout of spec
section 6 the header occupies the first 108 bytes and the entry table starts
immediately after it, which is also what the sibling parse_da in lib.rs
computes. -/

/-- Little-endian u16 at byte offset i. -/
def u16At (d : List Nat) (i : Nat) : Option Nat :=
  match d.get? i, d.get? (i + 1) with
  | some a, some b => some (a % 256 + 256 * (b % 256))
  | _, _ => none

/-- Little-endian u32 at byte offset i. -/
def u32At (d : List Nat) (i : Nat) : Option Nat :=
  match d.get? i, d.get? (i + 1), d.get? (i + 2), d.get? (i + 3) with
  | some a, some b, some c, some e =>
    some (a % 256 + 256 * (b % 256) + 65536 * (c % 256) + 16777216 * (e % 256))
  | _, _, _, _ => none

/-- Raw byte field of length n at byte offset i. -/
def bytesAt (d : List Nat) (i n : Nat) : Option (List Nat) :=
  if i + n ≤ d.length then some ((d.drop i).take n) else none

/-- ASCII bytes of MTK_DOWNLOAD_AGENT. -/
def DA_MAGIC : List Nat :=
  [77, 84, 75, 95, 68, 79, 87, 78, 76, 79, 65, 68, 95, 65, 71, 69, 78, 84]

/-- Typed parse errors of the DA parser, with the distinguished panic case
for out-of-range slice expressions. -/
inductive DAErr where
  | invalidHeaderMagic
  | invalidHeaderHeuristics
  | invalidHeaderType
  | invalidEntryMagic
  | invalidEntryHeuristics
  | invalidRegionStart
  | invalidRegionSize
  | cstr
  | bincode
  | custom (s : String)
  | panicked
deriving Repr, DecidableEq

/-- Low-level DA header record. -/
structure LLHeader where
  magic : List Nat
  padding : List Nat
  build_id : List Nat
  unknown : Nat
  ty : Nat
  count : Nat
deriving Repr, DecidableEq

/-- Low-level DA entry record. -/
structure LLEntry where
  magic : Nat
  hw_code : Nat
  hw_subcode : Nat
  hw_version : Nat
  sw_version : Nat
  unknown0 : Nat
  unknown1 : Nat
  unknown2 : Nat
  region_index : Nat
  region_count : Nat
deriving Repr, DecidableEq

/-- Low-level DA load-region record. -/
structure LLLoadRegion where
  start : Nat
  len : Nat
  base : Nat
  offset : Nat
  sig_len : Nat
deriving Repr, DecidableEq

/-- High-level region: the borrowed file slice, signature length and base. -/
structure Region where
  data : List Nat
  signature_len : Nat
  base : Nat
deriving Repr, DecidableEq

/-- High-level entry. -/
structure EntryHl where
  hw_code : Nat
  hw_subcode : Nat
  hw_version : Nat
  sw_version : Nat
  regions : List Region
deriving Repr, DecidableEq

/-- High-level DA model. -/
structure DAHl where
  build_id : List Nat
  entries : List EntryHl
deriving Repr, DecidableEq

/-- Decode the 108-byte header record. -/
def parseLLHeader (d : List Nat) : Option LLHeader :=
  match bytesAt d 0 18, bytesAt d 18 14, bytesAt d 32 64,
      u32At d 96, u32At d 100, u32At d 104 with
  | some mg, some pd, some bid, some unk, some ty, some cnt =>
    some ⟨mg, pd, bid, unk, ty, cnt⟩
  | _, _, _, _, _, _ => none

/-- Header validation of ll.rs. -/
def validateHeader (h : LLHeader) : Except DAErr Unit :=
  if h.magic ≠ DA_MAGIC then .error .invalidHeaderMagic
  else if h.padding.any (fun b => b ≠ 0) then .error .invalidHeaderHeuristics
  else if h.unknown ≠ 4 then .error .invalidHeaderHeuristics
  else if h.ty ≠ 0x22668899 then .error .invalidHeaderType
  else .ok ()

/-- Decode a 20-byte entry record at absolute offset p. -/
def parseLLEntry (d : List Nat) (p : Nat) : Option LLEntry :=
  match u16At d p, u16At d (p + 2), u16At d (p + 4), u16At d (p + 6),
      u16At d (p + 8), u16At d (p + 10), u16At d (p + 12), u16At d (p + 14),
      u16At d (p + 16), u16At d (p + 18) with
  | some m, some hc, some hs, some hv, some sv, some u0, some u1, some u2,
      some ri, some rc =>
    some ⟨m, hc, hs, hv, sv, u0, u1, u2, ri, rc⟩
  | _, _, _, _, _, _, _, _, _, _ => none

/-- Entry validation of ll.rs. -/
def validateEntry (e : LLEntry) : Except DAErr Unit :=
  if e.magic ≠ 0xDADA then .error .invalidEntryMagic
  else if e.region_count = 0 then .error .invalidEntryHeuristics
  else .ok ()

/-- Decode a 20-byte load-region record at absolute offset p. -/
def parseLLRegion (d : List Nat) (p : Nat) : Option LLLoadRegion :=
  match u32At d p, u32At d (p + 4), u32At d (p + 8), u32At d (p + 12),
      u32At d (p + 16) with
  | some st, some ln, some ba, some off, some sl => some ⟨st, ln, ba, off, sl⟩
  | _, _, _, _, _ => none

/-- Region validation of ll.rs; the source reports a zero base with the
InvalidRegionSize variant. -/
def validateRegion (r : LLLoadRegion) : Except DAErr Unit :=
  if r.start < 0x100 then .error .invalidRegionStart
  else if r.len < 0x100 then .error .invalidRegionSize
  else if r.base = 0 then .error .invalidRegionSize
  else .ok ()

/-- CStr::from_bytes_until_nul: the bytes before the first NUL, or an error
when no NUL occurs. -/
def cstrUntilNul (l : List Nat) : Option (List Nat) :=
  if l.contains 0 then some (l.takeWhile (fun b => b ≠ 0)) else none

/-- Region::parse of hl.rs: validate, then borrow the file slice from start
to start plus len, the u32 sum wrapping and the slice expression panicking
when out of range. -/
def parseRegionHl (d : List Nat) (ll : LLLoadRegion) : Except DAErr Region :=
  match validateRegion ll with
  | .error e => .error e
  | .ok _ =>
    let endPos := (ll.start + ll.len) % 4294967296
    if ll.start ≤ endPos ∧ endPos ≤ d.length then
      .ok ⟨(d.drop ll.start).take (endPos - ll.start), ll.sig_len, ll.base⟩
    else .error .panicked

/-- Parse count region records starting at absolute offset pos, 20 bytes
apart, as the map in Entry::parse of hl.rs. -/
def regionsGo (d : List Nat) : Nat → Nat → Except DAErr (List Region)
  | _, 0 => .ok []
  | pos, Nat.succ n =>
    if d.length < pos then .error .panicked
    else
      match parseLLRegion d pos with
      | none => .error .bincode
      | some ll =>
        match parseRegionHl d ll with
        | .error e => .error e
        | .ok r =>
          match regionsGo d (pos + 20) n with
          | .error e => .error e
          | .ok rs => .ok (r :: rs)

/-- Entry::parse of hl.rs at absolute offset start: decode and validate the
entry record, then parse its regions right after the 20-byte record. -/
def parseEntryHl (d : List Nat) (start : Nat) : Except DAErr EntryHl :=
  if d.length < start then .error .panicked
  else
    match parseLLEntry d start with
    | none => .error .bincode
    | some ll =>
      match validateEntry ll with
      | .error e => .error e
      | .ok _ =>
        match regionsGo d (start + 20) ll.region_count with
        | .error e => .error e
        | .ok rs => .ok ⟨ll.hw_code, ll.hw_subcode, ll.hw_version, ll.sw_version, rs⟩

/-- Parse count entries spaced 0xdc bytes apart starting at pos. -/
def entriesGo (d : List Nat) : Nat → Nat → Except DAErr (List EntryHl)
  | _, 0 => .ok []
  | pos, Nat.succ n =>
    match parseEntryHl d pos with
    | .error e => .error e
    | .ok en =>
      match entriesGo d (pos + 0xdc) n with
      | .error e => .error e
      | .ok es => .ok (en :: es)

/-- DA::parse of hl.rs over the whole file. -/
def daParse (d : List Nat) : Except DAErr DAHl :=
  match parseLLHeader d with
  | none => .error .bincode
  | some h =>
    match validateHeader h with
    | .error e => .error e
    | .ok _ =>
      match cstrUntilNul h.build_id with
      | none => .error .cstr
      | some bid =>
        match entriesGo d 108 h.count with
        | .error e => .error e
        | .ok es => .ok ⟨bid, es⟩

/-- DA::as_ll of hl.rs: an unimplemented stub that always fails. -/
def DA_as_ll (_da : DAHl) : Except DAErr LLHeader :=
  .error (.custom "TODO")

/-- Region::as_ll of hl.rs: an unimplemented stub that always fails. -/
def Region_as_ll (_r : Region) : Except DAErr LLLoadRegion :=
  .error (.custom "TODO")

theorem validateRegion_ok (r : LLLoadRegion) (h : validateRegion r = .ok ()) :
    0x100 ≤ r.start ∧ 0x100 ≤ r.len ∧ r.base ≠ 0 := by
  unfold validateRegion at h
  by_cases h1 : r.start < 0x100
  · rw [if_pos h1] at h; exact absurd h (by simp)
  rw [if_neg h1] at h
  by_cases h2 : r.len < 0x100
  · rw [if_pos h2] at h; exact absurd h (by simp)
  rw [if_neg h2] at h
  by_cases h3 : r.base = 0
  · rw [if_pos h3] at h; exact absurd h (by simp)
  exact ⟨by omega, by omega, h3⟩

theorem validateEntry_ok (e : LLEntry) (h : validateEntry e = .ok ()) :
    e.region_count ≠ 0 := by
  unfold validateEntry at h
  by_cases h1 : e.magic ≠ 0xDADA
  · rw [if_pos h1] at h; exact absurd h (by simp)
  rw [if_neg h1] at h
  by_cases h2 : e.region_count = 0
  · rw [if_pos h2] at h; exact absurd h (by simp)
  exact h2

theorem u32At_lt (d : List Nat) (i v : Nat) (h : u32At d i = some v) :
    v < 4294967296 := by
  unfold u32At at h
  rcases hg : d.get? i with _ | a <;> rw [hg] at h
  · exact absurd h (by simp)
  rcases hg1 : d.get? (i + 1) with _ | b <;> rw [hg1] at h
  · exact absurd h (by simp)
  rcases hg2 : d.get? (i + 2) with _ | c <;> rw [hg2] at h
  · exact absurd h (by simp)
  rcases hg3 : d.get? (i + 3) with _ | e <;> rw [hg3] at h
  · exact absurd h (by simp)
  simp only [Option.some.injEq] at h
  have ha : a % 256 < 256 := Nat.mod_lt _ (by norm_num)
  have hb : b % 256 < 256 := Nat.mod_lt _ (by norm_num)
  have hc : c % 256 < 256 := Nat.mod_lt _ (by norm_num)
  have he : e % 256 < 256 := Nat.mod_lt _ (by norm_num)
  omega

theorem parseRegionHl_ok (d : List Nat) (ll : LLLoadRegion) (r : Region)
    (hlen : ll.len < 4294967296)
    (h : parseRegionHl d ll = .ok r) :
    0x100 ≤ r.data.length ∧ r.base ≠ 0 ∧
      ∃ s, 0x100 ≤ s ∧ r.data = (d.drop s).take r.data.length := by
  unfold parseRegionHl at h
  rcases hv : validateRegion ll with e | u
  · rw [hv] at h; simp at h
  cases u
  rw [hv] at h
  dsimp only at h
  obtain ⟨hst, hln, hba⟩ := validateRegion_ok ll hv
  split_ifs at h with hok
  · simp only [Except.ok.injEq] at h
    subst h
    have hwrap : (ll.start + ll.len) % 4294967296 = ll.start + ll.len := by
      omega
    rw [hwrap] at hok
    refine ⟨?_, hba, ll.start, hst, ?_⟩
    · dsimp only
      rw [hwrap, List.length_take, List.length_drop]
      omega
    · dsimp only
      rw [hwrap, List.length_take, List.length_drop]
      congr 1
      omega

theorem regionsGo_ok (d : List Nat) :
    ∀ (n pos : Nat) (rs : List Region), regionsGo d pos n = .ok rs →
      rs.length = n ∧
      ∀ r ∈ rs, 0x100 ≤ r.data.length ∧ r.base ≠ 0 ∧
        ∃ s, 0x100 ≤ s ∧ r.data = (d.drop s).take r.data.length := by
  intro n
  induction n with
  | zero =>
    intro pos rs h
    simp only [regionsGo, Except.ok.injEq] at h
    subst h
    exact ⟨rfl, by simp⟩
  | succ k ih =>
    intro pos rs h
    simp only [regionsGo] at h
    split_ifs at h with hp
    rcases hll : parseLLRegion d pos with _ | ll
    · rw [hll] at h; simp at h
    rw [hll] at h
    dsimp only at h
    rcases hr : parseRegionHl d ll with e | r
    · rw [hr] at h; simp at h
    rw [hr] at h
    dsimp only at h
    rcases hrest : regionsGo d (pos + 20) k with e | rest
    · rw [hrest] at h; simp at h
    rw [hrest] at h
    dsimp only at h
    simp only [Except.ok.injEq] at h
    subst h
    obtain ⟨ihl, ihp⟩ := ih (pos + 20) rest hrest
    have hlen : ll.len < 4294967296 := by
      unfold parseLLRegion at hll
      rcases h0 : u32At d pos with _ | v0 <;> rw [h0] at hll
      · exact absurd hll (by simp)
      rcases h1 : u32At d (pos + 4) with _ | v1 <;> rw [h1] at hll
      · exact absurd hll (by simp)
      rcases h2 : u32At d (pos + 8) with _ | v2 <;> rw [h2] at hll
      · exact absurd hll (by simp)
      rcases h3 : u32At d (pos + 12) with _ | v3 <;> rw [h3] at hll
      · exact absurd hll (by simp)
      rcases h4 : u32At d (pos + 16) with _ | v4 <;> rw [h4] at hll
      · exact absurd hll (by simp)
      simp only [Option.some.injEq] at hll
      rw [← hll]
      exact u32At_lt d (pos + 4) v1 h1
    refine ⟨by simp only [List.length_cons, ihl], ?_⟩
    intro r2 hr2
    rcases List.mem_cons.mp hr2 with hr2 | hr2
    · subst hr2
      exact parseRegionHl_ok d ll r2 hlen hr
    · exact ihp r2 hr2

theorem entriesGo_ok (d : List Nat) :
    ∀ (n pos : Nat) (es : List EntryHl), entriesGo d pos n = .ok es →
      ∀ e ∈ es, e.regions ≠ [] ∧
        ∀ r ∈ e.regions, 0x100 ≤ r.data.length ∧ r.base ≠ 0 ∧
          ∃ s, 0x100 ≤ s ∧ r.data = (d.drop s).take r.data.length := by
  intro n
  induction n with
  | zero =>
    intro pos es h
    simp only [entriesGo, Except.ok.injEq] at h
    subst h
    simp
  | succ k ih =>
    intro pos es h
    simp only [entriesGo] at h
    rcases he : parseEntryHl d pos with e0 | en
    · rw [he] at h; simp at h
    rw [he] at h
    dsimp only at h
    rcases hrest : entriesGo d (pos + 0xdc) k with e0 | rest
    · rw [hrest] at h; simp at h
    rw [hrest] at h
    dsimp only at h
    simp only [Except.ok.injEq] at h
    subst h
    intro e2 he2
    rcases List.mem_cons.mp he2 with he2 | he2
    · subst he2
      unfold parseEntryHl at he
      split_ifs at he with hp
      rcases hll : parseLLEntry d pos with _ | ll
      · rw [hll] at he; simp at he
      rw [hll] at he
      dsimp only at he
      rcases hv : validateEntry ll with ev | u
      · rw [hv] at he; simp at he
      cases u
      rw [hv] at he
      dsimp only at he
      rcases hrg : regionsGo d (pos + 20) ll.region_count with ev | rs
      · rw [hrg] at he; simp at he
      rw [hrg] at he
      dsimp only at he
      simp only [Except.ok.injEq] at he
      obtain ⟨hrl, hrp⟩ := regionsGo_ok d ll.region_count (pos + 20) rs hrg
      have hcnt := validateEntry_ok ll hv
      constructor
      · rw [← he]
        dsimp only
        intro hnil
        rw [hnil] at hrl
        simp only [List.length_nil] at hrl
        omega
      · intro r hr
        apply hrp
        rw [← he] at hr
        dsimp only at hr
        exact hr
    · exact ih (pos + 0xdc) rest hrest e2 he2

/-- C6 (amended): every DA container accepted by the high-level parser has
entries each owning at least one region, and every accepted region has file
offset at least 256, length at least 256 (the borrowed slice is that long and
starts that deep into the file) and a nonzero load base; but the container
itself may have zero entries, since the header count is never checked. -/
theorem c6_accepted_invariants (d : List Nat) (da : DAHl)
    (h : daParse d = .ok da) :
    ∀ e ∈ da.entries, e.regions ≠ [] ∧
      ∀ r ∈ e.regions, 0x100 ≤ r.data.length ∧ r.base ≠ 0 ∧
        ∃ s, 0x100 ≤ s ∧ r.data = (d.drop s).take r.data.length := by
  unfold daParse at h
  rcases hh : parseLLHeader d with _ | hd
  · rw [hh] at h; simp at h
  rw [hh] at h
  dsimp only at h
  rcases hv : validateHeader hd with e0 | u
  · rw [hv] at h; simp at h
  cases u
  rw [hv] at h
  dsimp only at h
  rcases hc : cstrUntilNul hd.build_id with _ | bid
  · rw [hc] at h; simp at h
  rw [hc] at h
  dsimp only at h
  rcases hes : entriesGo d 108 hd.count with e0 | es
  · rw [hes] at h; simp at h
  rw [hes] at h
  dsimp only at h
  simp only [Except.ok.injEq] at h
  have := entriesGo_ok d hd.count 108 es hes
  rw [← h]
  exact this

instance {ε α : Type} [DecidableEq ε] [DecidableEq α] : DecidableEq (Except ε α)
  | .error e1, .error e2 => decidable_of_iff (e1 = e2) (by simp)
  | .error _, .ok _ => isFalse (by simp)
  | .ok _, .error _ => isFalse (by simp)
  | .ok a1, .ok a2 => decidable_of_iff (a1 = a2) (by simp)

/-- A container file whose header carries entry count zero but is otherwise
fully valid. -/
def c6bytes : List Nat :=
  DA_MAGIC ++ List.replicate 14 0 ++ List.replicate 64 0 ++
    [4, 0, 0, 0] ++ [0x99, 0x88, 0x66, 0x22] ++ [0, 0, 0, 0]

/-- C6 counterexample: the parser accepts a DA container with zero entries;
no check rejects an empty entry table. -/
theorem c6_counterexample :
    daParse c6bytes = .ok ⟨[], []⟩ ∧ (DAHl.entries ⟨[], []⟩).length = 0 := by
  decide

/-- A 512-byte container with one entry owning one valid region. -/
def c6file : List Nat :=
  DA_MAGIC ++ List.replicate 14 0 ++ List.replicate 64 0 ++
    [4, 0, 0, 0] ++ [0x99, 0x88, 0x66, 0x22] ++ [1, 0, 0, 0] ++
    ([0xDA, 0xDA] ++ [0x72, 0x65] ++ [0, 0] ++ [0, 0] ++ [0, 0] ++
      List.replicate 6 0 ++ [0, 0] ++ [1, 0]) ++
    ([0, 1, 0, 0] ++ [0, 1, 0, 0] ++ [0, 0, 0, 2] ++ [0, 0, 0, 0] ++
      [0x40, 0, 0, 0]) ++
    List.replicate 364 0

/-- The model c6file parses to. -/
def c6da : DAHl :=
  ⟨[], [⟨0x6572, 0, 0, 0, [⟨List.replicate 256 0, 0x40, 0x2000000⟩]⟩]⟩

set_option maxRecDepth 100000 in
/-- Witness for c6_accepted_invariants on the concrete container c6file. -/
theorem c6_accepted_invariants_witness :
    daParse c6file = .ok c6da ∧
      ∀ e ∈ c6da.entries, e.regions ≠ [] ∧
        ∀ r ∈ e.regions, 0x100 ≤ r.data.length ∧ r.base ≠ 0 ∧
          ∃ s, 0x100 ≤ s ∧ r.data = (c6file.drop s).take r.data.length :=
  ⟨by decide, c6_accepted_invariants c6file c6da (by decide)⟩

/-- C7: the serialization direction of the high-level DA model is an
unimplemented stub; DA::as_ll and Region::as_ll fail on every model, so no
parse, serialize, re-parse round trip can complete. -/
theorem c7_serialize_always_fails :
    (∀ da : DAHl, DA_as_ll da = .error (.custom "TODO")) ∧
    (∀ r : Region, Region_as_ll r = .error (.custom "TODO")) :=
  ⟨fun _ => rfl, fun _ => rfl⟩

/-! ## Patch application (crates/da-patcher)

UartPort and Hash are Instructions-mode patches: their pattern text is
assembled to bytes and searched for literally, so the assembler output enters
the model as an explicit byte list, exactly the role it plays in the source.
Offset arithmetic runs on usize: a subtraction below zero aborts (overflow
panic in a debug build; in release it wraps and the subsequent slice indexing
panics instead), and the replace helper panics when the write range leaves
the buffer. -/

/-- Patcher error kinds plus the modelled panic. -/
inductive PatchErr where
  | patternNotFound
  | panicked
deriving Repr, DecidableEq

/-- Byte search of slice/mod.rs: the first position whose suffix starts with
the pattern. -/
def sliceSearch (slice pat : List Nat) : Option Nat :=
  (List.range slice.length).find? (fun i => pat.isPrefixOf (slice.drop i))

/-- Instructions-mode search of PatchCode::search: locate the assembled
pattern bytes and return the inclusive range from the match start to the
match start plus the pattern length. -/
def patchSearchInstructions (patBytes slice : List Nat) : Except PatchErr (Nat × Nat) :=
  match sliceSearch slice patBytes with
  | some start => .ok (start, start + patBytes.length)
  | none => .error .patternNotFound

/-- Replace of slice/mod.rs: write the replacement at pos, panicking when the
write range exceeds the buffer. -/
def sliceReplace (slice : List Nat) (pos : Nat) (repl : List Nat) :
    Except PatchErr (List Nat) :=
  if pos + repl.length ≤ slice.length then
    .ok (slice.take pos ++ repl ++ slice.drop (pos + repl.length))
  else .error .panicked

/-- UartPort::offset: six bytes before the match start; the usize subtraction
panics when the match starts earlier than byte six. -/
def uartPortOffset (patBytes slice : List Nat) : Except PatchErr Nat :=
  match patchSearchInstructions patBytes slice with
  | .error e => .error e
  | .ok rg => if rg.1 < 6 then .error .panicked else .ok (rg.1 - 6)

/-- UartPort::patch: replace the assembled replacement at the offset. -/
def uartPortPatch (patBytes replBytes slice : List Nat) : Except PatchErr (List Nat) :=
  match uartPortOffset patBytes slice with
  | .error e => .error e
  | .ok off => sliceReplace slice off replBytes

/-- Hash::offset: fourteen bytes past the match end. -/
def hashOffset (patBytes slice : List Nat) : Except PatchErr Nat :=
  match patchSearchInstructions patBytes slice with
  | .error e => .error e
  | .ok rg => .ok (rg.2 + 4 + 5 * 2)

/-- Hash::patch: replace the assembled replacement at the offset. -/
def hashPatch (patBytes replBytes slice : List Nat) : Except PatchErr (List Nat) :=
  match hashOffset patBytes slice with
  | .error e => .error e
  | .ok off => sliceReplace slice off replBytes

/-- C9 counterexample: a buffer where the UartPort pattern matches at offset
zero makes the offset subtraction panic, and a buffer where the Hash pattern
ends fewer than sixteen bytes before the buffer end makes the write panic;
neither is a typed error. -/
theorem c9_counterexample :
    uartPortPatch [1, 2, 3, 4, 5, 6] [7, 8] [1, 2, 3, 4, 5, 6] = .error .panicked ∧
    hashPatch [9, 9] [7, 8] [0, 9, 9] = .error .panicked := by
  decide

/-- C9 (amended): a patch application reports a typed PatternNotFound when
the pattern is absent and succeeds when the computed offset and replacement
fit inside the buffer; but when the UartPort pattern matches before byte six,
or the Hash write range passes the buffer end, the application panics rather
than reporting a typed error. -/
theorem c9_patch_outcomes (patBytes replBytes slice : List Nat) :
    (sliceSearch slice patBytes = none →
      uartPortPatch patBytes replBytes slice = .error .patternNotFound ∧
      hashPatch patBytes replBytes slice = .error .patternNotFound) ∧
    (∀ p, sliceSearch slice patBytes = some p →
      (p < 6 → uartPortPatch patBytes replBytes slice = .error .panicked) ∧
      (6 ≤ p → p - 6 + replBytes.length ≤ slice.length →
        uartPortPatch patBytes replBytes slice =
          .ok (slice.take (p - 6) ++ replBytes ++
            slice.drop (p - 6 + replBytes.length))) ∧
      (slice.length < p + patBytes.length + 14 + replBytes.length →
        hashPatch patBytes replBytes slice = .error .panicked) ∧
      (p + patBytes.length + 14 + replBytes.length ≤ slice.length →
        hashPatch patBytes replBytes slice =
          .ok (slice.take (p + patBytes.length + 14) ++ replBytes ++
            slice.drop (p + patBytes.length + 14 + replBytes.length)))) := by
  constructor
  · intro hnone
    unfold uartPortPatch uartPortOffset hashPatch hashOffset patchSearchInstructions
    rw [hnone]
    exact ⟨rfl, rfl⟩
  · intro p hp
    unfold uartPortPatch uartPortOffset hashPatch hashOffset patchSearchInstructions
    rw [hp]
    dsimp only
    refine ⟨?_, ?_, ?_, ?_⟩
    · intro h6
      rw [if_pos h6]
    · intro h6 hfit
      rw [if_neg (by omega)]
      dsimp only
      unfold sliceReplace
      rw [if_pos hfit]
    · intro hover
      unfold sliceReplace
      rw [if_neg (by omega)]
    · intro hfit
      unfold sliceReplace
      rw [if_pos (by omega)]

/-- Witness for c9_patch_outcomes: a two-byte pattern sitting at offset ten
of a thirty-byte buffer, patched with a two-byte replacement. -/
theorem c9_patch_outcomes_witness :
    uartPortPatch [1, 2] [7, 8] (List.replicate 10 5 ++ [1, 2] ++ List.replicate 18 5) =
      .ok ((List.replicate 10 5 ++ [1, 2] ++ List.replicate 18 5).take (10 - 6) ++
        [7, 8] ++
        (List.replicate 10 5 ++ [1, 2] ++ List.replicate 18 5).drop
          (10 - 6 + ([7, 8] : List Nat).length)) :=
  (((c9_patch_outcomes [1, 2] [7, 8]
      (List.replicate 10 5 ++ [1, 2] ++ List.replicate 18 5)).2 10 (by decide)).2.1
    (by decide) (by decide))

/-! ## Fuzzy instruction search (crates/da-patcher/src/slice/fuzzy.rs)

The search walks a Thumb-2 disassembly of the byte buffer, decoding one
instruction at the current offset (skipping two bytes when decoding fails)
and sliding a window over the semicolon-split template list.  The
disassembler and the matcher are parameters, exactly as in the source, where
the disassembler is a capstone handle and the matcher a function argument.
The fuel bounds the loop; instruction sizes are positive (capstone emits two
or four bytes), so the byte length of the buffer plus one dominates the
iteration count, and the entry point passes that. -/

/-- One decoded instruction: byte size, mnemonic and operand text. -/
structure FInsn where
  size : Nat
  mnemonic : String
  ops : String
deriving Repr, DecidableEq

/-- Fuzzy search errors. -/
inductive FuzzyErr where
  | patternNotFound
  | mnemonicNotAvailable
  | instrOpNotAvailable
  | outOfFuel
deriving Repr, DecidableEq

/-- The loop of fuzzy_search_thumb2 over state offset, matched count n and
recorded window start. -/
def fuzzySearchGo (dis : List Nat → Option FInsn) (slice : List Nat)
    (pats : List String) (matcher : String → String → String → Except FuzzyErr Bool) :
    Nat → Nat → Nat → Option Nat → Except FuzzyErr (Nat × Nat)
  | fuel, offset, n, start =>
    if offset < slice.length then
      match fuel with
      | 0 => .error .outOfFuel
      | Nat.succ f =>
        match dis (slice.drop offset) with
        | some insn =>
          match pats.get? n with
          | none => .error .patternNotFound
          | some want =>
            match matcher insn.mnemonic insn.ops want with
            | .error e => .error e
            | .ok true =>
              let start2 := if n = 0 then some offset else start
              if n + 1 = pats.length then
                match start2 with
                | some s => .ok (s, offset + insn.size)
                | none => .error .patternNotFound
              else
                fuzzySearchGo dis slice pats matcher f (offset + insn.size) (n + 1) start2
            | .ok false =>
              if n ≠ 0 then
                fuzzySearchGo dis slice pats matcher f (offset + insn.size) 0 none
              else
                fuzzySearchGo dis slice pats matcher f (offset + insn.size) n start
        | none => fuzzySearchGo dis slice pats matcher f (offset + 2) n start
    else .error .patternNotFound

/-- fuzzy_search_thumb2 entry point. -/
def fuzzySearchThumb2 (dis : List Nat → Option FInsn) (slice : List Nat)
    (pats : List String)
    (matcher : String → String → String → Except FuzzyErr Bool) :
    Except FuzzyErr (Nat × Nat) :=
  fuzzySearchGo dis slice pats matcher (slice.length + 1) 0 0 none

/-- The window predicate of the claim, as a checker: starting at the given
offset, walk the disassembly (skipping undecodable bytes) and require the
next instructions, one per template, to match; return the end offset of the
last one. -/
def matchRunFrom (dis : List Nat → Option FInsn) (slice : List Nat)
    (matcher : String → String → String → Except FuzzyErr Bool) :
    Nat → List String → Nat → Option Nat
  | 0, _, _ => none
  | Nat.succ f, pats, offset =>
    if offset < slice.length then
      match dis (slice.drop offset) with
      | some insn =>
        match pats with
        | [] => none
        | t :: rest =>
          match matcher insn.mnemonic insn.ops t with
          | .ok true =>
            if rest = [] then some (offset + insn.size)
            else matchRunFrom dis slice matcher f rest (offset + insn.size)
          | _ => none
      | none => matchRunFrom dis slice matcher f pats (offset + 2)
    else none

/-- A toy two-byte disassembler: a leading zero byte decodes to mnemonic a,
any other leading byte to mnemonic b, both with operand text x. -/
def dis0 : List Nat → Option FInsn
  | b :: _ :: _ => some ⟨2, if b = 0 then "a" else "b", "x"⟩
  | _ => none

/-- Split a template at its first space, as str split_once. -/
def splitOnceSpace (s : String) : Option (String × String) :=
  let cs := s.toList
  let pre := cs.takeWhile (fun c => c ≠ ' ')
  if pre.length = cs.length then none
  else some (String.mk pre, String.mk (cs.drop (pre.length + 1)))

/-- The wildcard-free fragment of generic_reg_matcher: the full-match
template, the split of the template at its first space, and the three
equality fast paths.  Templates whose operand part contains a question mark
take the regex branch in the source and are outside this fragment; every
template used below is wildcard-free. -/
def plainMatcher (m op want : String) : Except FuzzyErr Bool :=
  if want = "??" then .ok true
  else
    match splitOnceSpace want with
    | none => .error .patternNotFound
    | some ws =>
      .ok ((m == ws.1 && op == ws.2) || (m != ws.1 && op == ws.2 && ws.1 == "?") ||
        (m == ws.1 && ws.2 == "??"))

/-- C5 counterexample: on the instruction stream a a a b with templates
a a b, a matching window of consecutive instructions starts at byte offset 2
and ends at 8, yet the search reports PatternNotFound: after the partial
match a a fails at the third instruction, the scan resumes past it without
rewinding, so the window is never visited. -/
theorem c5_counterexample :
    matchRunFrom dis0 [0, 0, 0, 0, 0, 0, 1, 0] plainMatcher 10
        ["a x", "a x", "b x"] 2 = some 8 ∧
    fuzzySearchThumb2 dis0 [0, 0, 0, 0, 0, 0, 1, 0] ["a x", "a x", "b x"]
        plainMatcher = .error .patternNotFound := by
  decide

theorem fuzzySearchGo_sound (dis : List Nat → Option FInsn) (slice : List Nat)
    (pats : List String)
    (matcher : String → String → String → Except FuzzyErr Bool) :
    ∀ (fuel offset n : Nat) (start : Option Nat) (a b : Nat),
      fuzzySearchGo dis slice pats matcher fuel offset n start = .ok (a, b) →
      (n ≠ 0 → ∃ s, start = some s ∧
        ∀ frest e, matchRunFrom dis slice matcher frest (pats.drop n) offset = some e →
          ∃ ff, matchRunFrom dis slice matcher ff pats s = some e) →
      ∃ ff, matchRunFrom dis slice matcher ff pats a = some b := by
  intro fuel
  induction fuel with
  | zero =>
    intro offset n start a b h hinv
    unfold fuzzySearchGo at h
    by_cases ho : offset < slice.length
    · rw [if_pos ho] at h
      simp at h
    · rw [if_neg ho] at h
      simp at h
  | succ f ih =>
    intro offset n start a b h hinv
    unfold fuzzySearchGo at h
    by_cases ho : offset < slice.length
    swap
    · rw [if_neg ho] at h
      simp at h
    rw [if_pos ho] at h
    dsimp only at h
    rcases hd : dis (slice.drop offset) with _ | insn
    · rw [hd] at h
      dsimp only at h
      apply ih (offset + 2) n start a b h
      intro hn
      obtain ⟨s, hs, hcont⟩ := hinv hn
      refine ⟨s, hs, fun frest e he => hcont (frest + 1) e ?_⟩
      unfold matchRunFrom
      rw [if_pos ho, hd]
      exact he
    rw [hd] at h
    dsimp only at h
    rcases hw : pats.get? n with _ | want
    · rw [hw] at h
      simp at h
    rw [hw] at h
    dsimp only at h
    rcases hm : matcher insn.mnemonic insn.ops want with em | bm
    · rw [hm] at h
      simp at h
    rw [hm] at h
    have hnlt : n < pats.length := by
      by_contra hc
      push_neg at hc
      rw [List.get?_eq_none.mpr hc] at hw
      exact absurd hw (by simp)
    have hdropn : pats.drop n = want :: pats.drop (n + 1) := by
      have h1 : pats.drop n = pats.get ⟨n, hnlt⟩ :: pats.drop (n + 1) :=
        List.drop_eq_getElem_cons hnlt
      have h2 : pats.get? n = some (pats.get ⟨n, hnlt⟩) := List.get?_eq_get hnlt
      rw [hw] at h2
      simp only [Option.some.injEq] at h2
      rw [h1, h2]
    cases bm
    · -- matcher returned false
      dsimp only at h
      by_cases hn0 : n ≠ 0
      · rw [if_pos hn0] at h
        exact ih _ _ _ _ _ h (fun hc => absurd rfl hc)
      · rw [if_neg hn0] at h
        exact ih _ _ _ _ _ h (fun hc => absurd hc hn0)
    · -- matcher returned true
      dsimp only at h
      by_cases hlen : n + 1 = pats.length
      · rw [if_pos hlen] at h
        have hdrop1 : pats.drop (n + 1) = [] := by
          rw [hlen, List.drop_length]
        have hrun1 : matchRunFrom dis slice matcher 1 [want] offset =
            some (offset + insn.size) := by
          unfold matchRunFrom
          rw [if_pos ho, hd]
          dsimp only
          rw [hm]
          rfl
        by_cases hn0 : n = 0
        · subst hn0
          rw [if_pos rfl] at h
          dsimp only at h
          simp only [Except.ok.injEq, Prod.mk.injEq] at h
          obtain ⟨ha, hb⟩ := h
          subst ha
          subst hb
          refine ⟨1, ?_⟩
          have hpats : pats = [want] := by
            have : pats.length = 1 := by omega
            rcases List.length_eq_one.mp this with ⟨t0, ht0⟩
            rw [ht0] at hw
            simp only [List.get?] at hw
            rw [ht0]
            simp only [Option.some.injEq] at hw
            rw [hw]
          rw [hpats]
          exact hrun1
        · rw [if_neg hn0] at h
          obtain ⟨s, hs, hcont⟩ := hinv hn0
          rw [hs] at h
          dsimp only at h
          simp only [Except.ok.injEq, Prod.mk.injEq] at h
          obtain ⟨ha, hb⟩ := h
          subst ha
          subst hb
          apply hcont 1
          rw [hdropn, hdrop1]
          exact hrun1
      · rw [if_neg hlen] at h
        apply ih _ _ _ _ _ h
        intro _
        by_cases hn0 : n = 0
        · subst hn0
          refine ⟨offset, by rw [if_pos rfl], fun frest e he => ⟨frest + 1, ?_⟩⟩
          unfold matchRunFrom
          rw [if_pos ho, hd]
          dsimp only
          have hpats0 : pats = want :: pats.drop 1 := by
            have := hdropn
            rw [List.drop_zero] at this
            exact this
          conv_lhs => rw [hpats0]
          dsimp only
          rw [hm]
          dsimp only
          rw [if_neg (by
            intro hc
            have : pats.length = 1 := by
              rw [hpats0, hc]
              rfl
            omega)]
          exact he
        · obtain ⟨s, hs, hcont⟩ := hinv hn0
          refine ⟨s, by rw [if_neg hn0]; exact hs, fun frest e he => hcont (frest + 1) e ?_⟩
          unfold matchRunFrom
          rw [if_pos ho, hd]
          dsimp only
          rw [hdropn]
          dsimp only
          rw [hm]
          dsimp only
          rw [if_neg (by
            intro hc
            have hlen2 : pats.length ≤ n + 1 := by
              have := List.drop_eq_nil_iff.mp hc
              omega
            omega)]
          exact he

/-- C5 (amended): when the fuzzy Thumb-2 search succeeds with range (a, b),
the buffer really contains, starting at offset a, a window of consecutively
walked instructions, one per template in order, each matching its template,
with the last one ending at b; but the search can return PatternNotFound even
though such a window exists, because after a failed partial match the scan
resumes past the mismatching instruction instead of rewinding to the second
instruction of the abandoned candidate. -/
theorem c5_fuzzy_sound (dis : List Nat → Option FInsn) (slice : List Nat)
    (pats : List String)
    (matcher : String → String → String → Except FuzzyErr Bool) (a b : Nat)
    (h : fuzzySearchThumb2 dis slice pats matcher = .ok (a, b)) :
    ∃ ff, matchRunFrom dis slice matcher ff pats a = some b :=
  fuzzySearchGo_sound dis slice pats matcher (slice.length + 1) 0 0 none a b h
    (fun hc => absurd rfl hc)

/-- Witness for c5_fuzzy_sound: a successful two-template search on the
stream a b. -/
theorem c5_fuzzy_sound_witness :
    ∃ ff, matchRunFrom dis0 [0, 0, 1, 0] plainMatcher ff ["a x", "b x"] 0 = some 4 :=
  c5_fuzzy_sound dis0 [0, 0, 1, 0] ["a x", "b x"] plainMatcher 0 4 (by decide)

/-! ## Device-side analyzer (crates/da-analyzer/src/lib.rs)

The instruction representation keeps the fields analyze_function inspects:
the opcode, the first two operand slots of the armv7 instruction, and the
condition code reduced to whether it is AL.  The outer worklist loop carries
fuel; every successful run of the source is reproduced by a sufficiently
fuelled run since each iteration pops one queue entry and entries are pushed
at most once per distinct block start. -/

/-- Operand shapes used by the analyzer. -/
inductive AOperand where
  | regList (bits : Nat)
  | branchThumbOffset (t : Int)
  | reg (n : Nat)
  | imm32 (v : Nat)
  | otherOperand
deriving Repr, DecidableEq

/-- Opcodes the analyzer dispatches on. -/
inductive AOpcode where
  | push | pop | b | cbz | cbnz | bx | otherOpcode
deriving Repr, DecidableEq

/-- Condition code reduced to the AL test the analyzer performs. -/
inductive ACond where
  | al | notAl
deriving Repr, DecidableEq

/-- A decoded instruction restricted to the inspected fields. -/
structure AInstr where
  opcode : AOpcode
  operand0 : AOperand
  operand1 : AOperand
  condition : ACond
deriving Repr, DecidableEq

/-- An instruction paired with its byte offset, as the Code struct. -/
structure ACode where
  instruction : AInstr
  offset : Nat
deriving Repr, DecidableEq

/-- Does a register list include LR. -/
def listHasLr (l : Nat) : Bool := l &&& (1 <<< 14) != 0

/-- Does a register list include PC. -/
def listHasPc (l : Nat) : Bool := l &&& (1 <<< 15) != 0

/-- Function-prologue test: PUSH of a register list containing LR. -/
def isPrologue (c : ACode) : Bool :=
  match c.instruction.operand0 with
  | .regList l => c.instruction.opcode == .push && listHasLr l
  | _ => false

/-- Function-epilogue test: POP of a register list containing PC. -/
def isEpilogue (c : ACode) : Bool :=
  match c.instruction.operand0 with
  | .regList l => c.instruction.opcode == .pop && listHasPc l
  | _ => false

/-- Map an instruction byte offset to the first index carrying it. -/
def offset2idx (code : List ACode) (off : Nat) : Option Nat :=
  code.findIdx? (fun c => c.offset == off)

/-- Analyzer errors plus the modelled panic and fuel exhaustion. -/
inductive AErr where
  | mapOffsetToIndex
  | invalidBlockIndex
  | overrun
  | pcOverflow
  | panicked
  | outOfFuel
deriving Repr, DecidableEq

/-- A basic-block index range; stop is the inclusive end field. -/
structure ABlock where
  start : Nat
  stop : Nat
deriving Repr, DecidableEq

/-- Assign the stop field of the i-th block. -/
def setStop : List ABlock → Nat → Nat → List ABlock
  | [], _, _ => []
  | b :: bs, 0, e => ⟨b.start, e⟩ :: bs
  | b :: bs, Nat.succ i, e => b :: setStop bs i e

/-- The end fixup: rewrite the stop of the first block ending at idx, as the
iter_mut find in the branch handler. -/
def fixupStop (blocks : List ABlock) (idx v : Nat) : List ABlock :=
  match blocks.findIdx? (fun b => b.stop == idx) with
  | none => blocks
  | some k => setStop blocks k v

/-- The backward walk locating the enclosing prologue: start stays zero when
none is found; the take of i panics when i exceeds the code length. -/
def findStart (code : List ACode) (i : Nat) : Except AErr Nat :=
  if code.length < i then .error .panicked
  else
    match (code.take i).reverse.find? isPrologue with
    | none => .ok 0
    | some c =>
      match offset2idx code c.offset with
      | none => .error .mapOffsetToIndex
      | some s => .ok s

/-- One walk of the inner for loop from the current block start: the block
list is only rewritten at a break, so it rides along unchanged and the result
carries the rewritten blocks plus the queue pushes of the breaking step. -/
def scanBlock (code : List ACode) (startF codeStart blockIdx : Nat)
    (blocks : List ABlock) : List ACode → Except AErr (List ABlock × List Nat)
  | [] => .ok (blocks, [])
  | c :: rest =>
    match offset2idx code c.offset with
    | none => .error .mapOffsetToIndex
    | some idx =>
      if idx > codeStart ∧ blocks.any (fun b => b.start == idx) then
        .ok (setStop blocks blockIdx (idx - 1), [])
      else if idx > startF ∧ isPrologue c then .error .overrun
      else
        match c.instruction.opcode with
        | .b | .cbz | .cbnz =>
          let isCbz := c.instruction.opcode == .cbz || c.instruction.opcode == .cbnz
          let targetOp := if c.instruction.opcode == .b then c.instruction.operand0
                          else c.instruction.operand1
          match targetOp with
          | .branchThumbOffset t =>
            if (c.offset + 4 : Int) + t < 0 then .error .pcOverflow
            else
              match offset2idx code ((c.offset + 4 : Int) + t).toNat with
              | none => .error .mapOffsetToIndex
              | some target =>
                match blocks.get? blockIdx with
                | none => .error .panicked
                | some bcur =>
                  let blocks1 := fixupStop blocks idx bcur.start
                  let blocks2 := setStop blocks1 blockIdx idx
                  if code.length < target + 5 then .error .panicked
                  else
                    match code.get? startF with
                    | none => .error .panicked
                    | some cstart =>
                      let isTail := c.instruction.condition == .al &&
                        ((code.drop target).take 5).any
                          (fun cc => isPrologue cc && cc.offset != cstart.offset)
                      if isTail then .ok (blocks2, [])
                      else
                        if blocks.any (fun b => b.start == target) then
                          .ok (blocks2, [])
                        else
                          let blocks3 := blocks2 ++ [⟨target, code.length⟩]
                          if c.instruction.condition != .al || isCbz then
                            if blocks3.any (fun b => b.start == idx + 1) then
                              .ok (blocks3, [target])
                            else
                              .ok (blocks3 ++ [⟨idx + 1, code.length⟩],
                                [target, idx + 1])
                          else
                            .ok (blocks3, [target])
          | _ => scanBlock code startF codeStart blockIdx blocks rest
        | .pop =>
          if isEpilogue c then .ok (setStop blocks blockIdx idx, [])
          else scanBlock code startF codeStart blockIdx blocks rest
        | .bx =>
          match c.instruction.operand0 with
          | .reg r =>
            if r = 14 then .ok (setStop blocks blockIdx idx, [])
            else scanBlock code startF codeStart blockIdx blocks rest
          | _ => scanBlock code startF codeStart blockIdx blocks rest
        | _ => scanBlock code startF codeStart blockIdx blocks rest

/-- The worklist loop of analyze_function. -/
def analyzeGo (code : List ACode) (startF : Nat) :
    Nat → List ABlock → List Nat → Except AErr (List ABlock)
  | 0, _, _ => .error .outOfFuel
  | Nat.succ f, blocks, queue =>
    match queue.getLast? with
    | none => .ok blocks
    | some codeStart =>
      let queue1 := queue.dropLast
      match blocks.findIdx? (fun b => b.start == codeStart) with
      | none => .error .invalidBlockIndex
      | some blockIdx =>
        if code.length < codeStart then .error .panicked
        else
          match scanBlock code startF codeStart blockIdx blocks (code.drop codeStart) with
          | .error e => .error e
          | .ok bq => analyzeGo code startF f bq.1 (queue1 ++ bq.2)

/-- Sort the blocks by start, as the final sort_unstable over the Ord
instance comparing starts. -/
def sortBlocks (blocks : List ABlock) : List ABlock :=
  blocks.insertionSort (fun b1 b2 => b1.start ≤ b2.start)

/-- Analyzer::analyze_function: locate the prologue, drain the worklist, sort
the blocks, and run the final assertions; the inclusive slice taken per block
panics when a block is emptier than start equals stop plus one allows. -/
def analyzeFunction (code : List ACode) (i fuel : Nat) : Except AErr (List ABlock) :=
  match findStart code i with
  | .error e => .error e
  | .ok startF =>
    match analyzeGo code startF fuel [⟨startF, code.length⟩] [startF] with
    | .error e => .error e
    | .ok blocks =>
      let sorted := sortBlocks blocks
      if sorted.any (fun b => b.stop == code.length) then .error .panicked
      else if sorted.length = 0 then .error .panicked
      else if sorted.any (fun b => b.stop + 1 < b.start) then .error .panicked
      else .ok sorted

/-- Five Thumb instructions: a foreign prologue at index 0, a filler, the
analyzed function's prologue at index 2, a conditional branch back to index 0,
and a POP-PC epilogue. -/
def c8code : List ACode :=
  [⟨⟨.push, .regList (1 <<< 14), .otherOperand, .al⟩, 0⟩,
   ⟨⟨.otherOpcode, .otherOperand, .otherOperand, .al⟩, 2⟩,
   ⟨⟨.push, .regList (1 <<< 14), .otherOperand, .al⟩, 4⟩,
   ⟨⟨.b, .branchThumbOffset (-10), .otherOperand, .notAl⟩, 6⟩,
   ⟨⟨.pop, .regList (1 <<< 15), .otherOperand, .al⟩, 8⟩]

/-- C8 counterexample: analyzing from index 3 succeeds with blocks
(0,1) (2,3) (4,4); the function prologue sits at index 2, yet the block
containing it is not the first block of the result, and the first block
(0,1), created by the backward conditional branch, spans the foreign
prologue at index 0 even though the function starts at index 2. -/
theorem c8_counterexample :
    analyzeFunction c8code 3 10 =
      .ok [⟨0, 1⟩, ⟨2, 3⟩, ⟨4, 4⟩] ∧
    (∃ b ∈ ([⟨0, 1⟩, ⟨2, 3⟩, ⟨4, 4⟩] : List ABlock), ∃ j ∈ List.range (b.stop + 1),
      b.start ≤ j ∧ (c8code.get? j).any isPrologue = true ∧
      ¬(([⟨0, 1⟩, ⟨2, 3⟩, ⟨4, 4⟩] : List ABlock).head? = some b ∧ j = b.start)) ∧
    findStart c8code 3 = .ok 2 ∧
    (⟨0, 1⟩ : ABlock) ∈ ([⟨0, 1⟩, ⟨2, 3⟩, ⟨4, 4⟩] : List ABlock) ∧
    (c8code.get? 0).any isPrologue = true := by
  decide

/-! ### Invariants of an accepted analysis

The amended C8 statement is proved by tracking, through the worklist loop,
that every block is either still open (its stop is the sentinel
code.length) or closed with start at most stop, stop inside the buffer, and
no prologue at any spanned index strictly after the located function start;
block starts stay pairwise distinct and every queued start owns an open
block. -/

/-- A block is open (sentinel stop) or closed and well formed. -/
def BOk (code : List ACode) (startF : Nat) (b : ABlock) : Prop :=
  b.stop = code.length ∨
    (b.start ≤ b.stop ∧ b.stop < code.length ∧
      ∀ j, b.start ≤ j → j ≤ b.stop → startF < j →
        ∀ c, code.get? j = some c → isPrologue c = false)

/-- The loop invariant on the block list: distinct starts, each block ok. -/
def AInv (code : List ACode) (startF : Nat) (blocks : List ABlock) : Prop :=
  (blocks.map ABlock.start).Nodup ∧ ∀ b ∈ blocks, BOk code startF b

/-- The queue invariant: each queued start owns an open block, no repeats. -/
def QInv (code : List ACode) (blocks : List ABlock) (queue : List Nat) : Prop :=
  (∀ q ∈ queue, ∃ b ∈ blocks, b.start = q ∧ b.stop = code.length) ∧
  queue.Pairwise (fun a b => a ≠ b)

/-- setStop keeps the length. -/
theorem setStop_length (bs : List ABlock) (i e : Nat) :
    (setStop bs i e).length = bs.length := by
  induction bs generalizing i with
  | nil => rfl
  | cons b bs ih => cases i <;> simp [setStop, ih]

/-- Pointwise description of setStop. -/
theorem setStop_get? (bs : List ABlock) (i e k : Nat) :
    (setStop bs i e).get? k =
      if k = i then (bs.get? k).map (fun b => ⟨b.start, e⟩) else bs.get? k := by
  induction bs generalizing i k with
  | nil => simp [setStop]
  | cons b bs ih =>
    cases i with
    | zero =>
      cases k with
      | zero => simp [setStop]
      | succ k => simp [setStop]
    | succ i =>
      cases k with
      | zero => simp [setStop]
      | succ k => simpa [setStop] using ih i k

/-- setStop keeps the start projections. -/
theorem setStop_map_start (bs : List ABlock) (i e : Nat) :
    (setStop bs i e).map ABlock.start = bs.map ABlock.start := by
  induction bs generalizing i with
  | nil => rfl
  | cons b bs ih => cases i <;> simp [setStop, ih]

/-- The boolean start scan agrees with membership in the start projections. -/
theorem any_start_iff (bs : List ABlock) (s : Nat) :
    bs.any (fun b => b.start == s) = true ↔ s ∈ bs.map ABlock.start := by
  simp only [List.any_eq_true, List.mem_map, beq_iff_eq]

/-- Two positions carrying blocks with one start coincide when the start
projections have no duplicate. -/
theorem start_get?_inj {bs : List ABlock} (h : (bs.map ABlock.start).Nodup)
    {k1 k2 : Nat} {b1 b2 : ABlock} (h1 : bs.get? k1 = some b1)
    (h2 : bs.get? k2 = some b2) (hs : b1.start = b2.start) : k1 = k2 := by
  have hm1 : (bs.map ABlock.start)[k1]? = some b1.start := by
    rw [List.getElem?_map, ← List.get?_eq_getElem?, h1]
    rfl
  have hm2 : (bs.map ABlock.start)[k2]? = some b2.start := by
    rw [List.getElem?_map, ← List.get?_eq_getElem?, h2]
    rfl
  have hk1 : k1 < (bs.map ABlock.start).length := by
    by_contra hc
    rw [List.getElem?_eq_none (by omega)] at hm1
    exact Option.noConfusion hm1
  exact List.getElem?_inj hk1 h (by rw [hm1, hm2, hs])

/-- Two member blocks with one start coincide when the start projections
have no duplicate. -/
theorem start_mem_inj {bs : List ABlock} (h : (bs.map ABlock.start).Nodup)
    {b1 b2 : ABlock} (h1 : b1 ∈ bs) (h2 : b2 ∈ bs) (hs : b1.start = b2.start) :
    b1 = b2 := by
  obtain ⟨k1, hk1⟩ := List.mem_iff_get?.mp h1
  obtain ⟨k2, hk2⟩ := List.mem_iff_get?.mp h2
  have hk := start_get?_inj h hk1 hk2 hs
  subst hk
  rw [hk1] at hk2
  exact Option.some_injective _ hk2

/-- Membership after setStop: an untouched block or the rewritten one. -/
theorem mem_setStop {bs : List ABlock} {i e : Nat} {b2 : ABlock}
    (h : b2 ∈ setStop bs i e) :
    b2 ∈ bs ∨ ∃ b, bs.get? i = some b ∧ b2 = ⟨b.start, e⟩ := by
  obtain ⟨k, hk⟩ := List.mem_iff_get?.mp h
  rw [setStop_get?] at hk
  by_cases hki : k = i
  · subst hki
    rw [if_pos rfl, Option.map_eq_some'] at hk
    obtain ⟨b, hb, hfb⟩ := hk
    exact Or.inr ⟨b, hb, hfb.symm⟩
  · rw [if_neg hki] at hk
    exact Or.inl (List.get?_mem hk)

/-- Under strictly increasing offsets the offset map returns the position
an instruction was read from. -/
theorem offset2idx_self {code : List ACode}
    (hmono : code.Pairwise (fun a b => a.offset < b.offset))
    {j : Nat} {c : ACode} (hc : code.get? j = some c) :
    offset2idx code c.offset = some j := by
  have hj : j < code.length := by
    by_contra hlt
    rw [List.get?_eq_none.mpr (by omega)] at hc
    exact Option.noConfusion hc
  have hcj : code[j] = c := by
    have he := List.get?_eq_getElem? code j
    rw [hc, List.getElem?_eq_getElem hj] at he
    exact Option.some_injective _ he.symm
  rw [offset2idx, List.findIdx?_eq_some_iff_getElem]
  refine ⟨hj, by simp [hcj], fun m hm => ?_⟩
  have hlt := (List.pairwise_iff_getElem.mp hmono) m j (by omega) hj hm
  rw [hcj] at hlt
  simp [Nat.ne_of_lt hlt]

/-- A member of the tail before the last entry differs from the last entry
when the list has no repeats. -/
theorem dropLast_getLast?_ne {l : List Nat}
    (hpw : l.Pairwise (fun a b => a ≠ b)) :
    ∀ {x : Nat}, l.getLast? = some x → ∀ {q : Nat}, q ∈ l.dropLast → q ≠ x := by
  induction l with
  | nil =>
    intro x hx
    exact absurd hx (by simp)
  | cons a l ih =>
    intro x hx q hq
    cases l with
    | nil => simp at hq
    | cons b l2 =>
      rw [List.getLast?_cons_cons] at hx
      have hq2 : q = a ∨ q ∈ (b :: l2).dropLast := by simpa using hq
      rcases hq2 with rfl | hq2
      · have hxm : x ∈ b :: l2 := List.mem_of_mem_getLast? (Option.mem_def.mpr hx)
        exact (List.pairwise_cons.mp hpw).1 x hxm
      · exact ih (List.pairwise_cons.mp hpw).2 hx hq2

/-- What a successful inner walk guarantees: invariant kept, other open
blocks kept, every push names a fresh start owning an open block, pushes
pairwise distinct. -/
def ScanPost (code : List ACode) (startF codeStart : Nat)
    (blocks blocks2 : List ABlock) (pushes : List Nat) : Prop :=
  AInv code startF blocks2 ∧
  (∀ b ∈ blocks, b.stop = code.length → b.start ≠ codeStart → b ∈ blocks2) ∧
  (∀ p ∈ pushes, p ∉ blocks.map ABlock.start ∧
    ∃ b2 ∈ blocks2, b2.start = p ∧ b2.stop = code.length) ∧
  pushes.Pairwise (fun a b => a ≠ b)

/-- Appending a fresh element keeps a duplicate-free list duplicate free. -/
theorem nodup_append_singleton {l : List Nat} {a : Nat} (h : l.Nodup)
    (ha : a ∉ l) : (l ++ [a]).Nodup := by
  simp [List.nodup_append, h, ha]

/-- A walk that falls off the end changes nothing. -/
theorem scanPost_refl {code : List ACode} {startF codeStart : Nat}
    {blocks : List ABlock} (hinv : AInv code startF blocks) :
    ScanPost code startF codeStart blocks blocks [] :=
  ⟨hinv, fun b hb _ _ => hb, by simp, by simp⟩

/-- Closing the current block at a stop inside the checked stretch. -/
theorem scanPost_setStop {code : List ACode} {startF codeStart blockIdx e : Nat}
    {blocks : List ABlock}
    (hinv : AInv code startF blocks)
    (hcur : blocks.get? blockIdx = some ⟨codeStart, code.length⟩)
    (he1 : codeStart ≤ e) (he2 : e < code.length)
    (hPC : ∀ m, codeStart ≤ m → m ≤ e → startF < m →
      ∀ c, code.get? m = some c → isPrologue c = false) :
    ScanPost code startF codeStart blocks (setStop blocks blockIdx e) [] := by
  refine ⟨⟨?_, ?_⟩, ?_, by simp, by simp⟩
  · rw [setStop_map_start]
    exact hinv.1
  · intro b2 hb2
    rcases mem_setStop hb2 with hmem | ⟨b, hbget, hbe⟩
    · exact hinv.2 _ hmem
    · rw [hcur] at hbget
      have hb := Option.some_injective _ hbget
      subst hbe
      rw [← hb]
      exact Or.inr ⟨he1, he2, fun m hm1 hm2 hm3 c hc => hPC m hm1 hm2 hm3 c hc⟩
  · intro b hmem hopen hne
    obtain ⟨k, hk⟩ := List.mem_iff_get?.mp hmem
    have hkne : k ≠ blockIdx := by
      intro he
      rw [he, hcur] at hk
      have h3 := Option.some_injective _ hk
      rw [← h3] at hne
      exact hne rfl
    have hk2 : (setStop blocks blockIdx e).get? k = some b := by
      rw [setStop_get?, if_neg hkne]
      exact hk
    exact List.get?_mem hk2

/-- Effect of the end fixup performed by the branch handler: the current
block is untouched, starts are kept, every block stays ok, and open blocks
keep their positions. -/
theorem fixupStop_facts {code : List ACode} {startF codeStart blockIdx j : Nat}
    {blocks : List ABlock}
    (hinv : AInv code startF blocks)
    (hcur : blocks.get? blockIdx = some ⟨codeStart, code.length⟩)
    (hjlt : j < code.length) (hjge : codeStart ≤ j)
    (hNT : ∀ m, codeStart < m → m < j + 1 → ∀ b ∈ blocks, b.start ≠ m) :
    (fixupStop blocks j codeStart).get? blockIdx = some ⟨codeStart, code.length⟩ ∧
    (fixupStop blocks j codeStart).map ABlock.start = blocks.map ABlock.start ∧
    (∀ b2 ∈ fixupStop blocks j codeStart, BOk code startF b2) ∧
    (∀ k b, blocks.get? k = some b → b.stop = code.length →
      (fixupStop blocks j codeStart).get? k = some b) := by
  rcases hf : blocks.findIdx? (fun b => b.stop == j) with _ | kf
  · rw [fixupStop, hf]
    exact ⟨hcur, rfl, hinv.2, fun k b hk _ => hk⟩
  · rw [fixupStop, hf]
    obtain ⟨hkf, hAeq, _⟩ := List.findIdx?_eq_some_iff_getElem.mp hf
    simp only [beq_iff_eq] at hAeq
    have hAget : blocks.get? kf = some blocks[kf] := by
      rw [List.get?_eq_getElem?, List.getElem?_eq_getElem hkf]
    have hAmem : blocks[kf] ∈ blocks := List.getElem_mem hkf
    have hAclosed : blocks[kf].stop ≠ code.length := by omega
    rcases hinv.2 _ hAmem with hA1 | ⟨hA1, hA2, hA3⟩
    · exact absurd hA1 hAclosed
    have hAstart : blocks[kf].start ≤ codeStart := by
      by_contra hgt
      push_neg at hgt
      exact hNT blocks[kf].start hgt (by omega) _ hAmem rfl
    have hne : kf ≠ blockIdx := by
      intro he
      have h2 := hcur
      rw [← he, hAget] at h2
      have h3 := Option.some_injective _ h2
      rw [h3] at hAclosed
      exact hAclosed rfl
    refine ⟨?_, setStop_map_start blocks kf codeStart, ?_, ?_⟩
    · rw [setStop_get?, if_neg (fun h => hne h.symm)]
      exact hcur
    · intro b2 hb2
      rcases mem_setStop hb2 with hmem | ⟨b, hbget, hbe⟩
      · exact hinv.2 _ hmem
      · rw [hAget] at hbget
        have hb := Option.some_injective _ hbget
        subst hbe
        rw [← hb]
        refine Or.inr ⟨hAstart, by show codeStart < code.length; omega, ?_⟩
        intro m hm1 hm2 hm3 c hc
        have hm1b : blocks[kf].start ≤ m := hm1
        have hm2b : m ≤ codeStart := hm2
        exact hA3 m hm1b (by omega) hm3 c hc
    · intro k b hk hopen
      have hkne : k ≠ kf := by
        intro he
        rw [he, hAget] at hk
        have h3 := Option.some_injective _ hk
        rw [← h3] at hopen
        exact hAclosed hopen
      rw [setStop_get?, if_neg hkne]
      exact hk

/-- Closing the current block at the branch position, after the end fixup,
keeps the invariant and the other open blocks. -/
theorem scanPost_close {code : List ACode} {startF codeStart blockIdx j : Nat}
    {blocks : List ABlock}
    (hinv : AInv code startF blocks)
    (hcur : blocks.get? blockIdx = some ⟨codeStart, code.length⟩)
    (hjlt : j < code.length) (hjge : codeStart ≤ j)
    (hNT : ∀ m, codeStart < m → m < j + 1 → ∀ b ∈ blocks, b.start ≠ m)
    (hPC : ∀ m, codeStart ≤ m → m < j + 1 → startF < m →
      ∀ c, code.get? m = some c → isPrologue c = false) :
    ScanPost code startF codeStart blocks
      (setStop (fixupStop blocks j codeStart) blockIdx j) [] ∧
    (setStop (fixupStop blocks j codeStart) blockIdx j).map ABlock.start =
      blocks.map ABlock.start := by
  obtain ⟨hf1, hf2, hf3, hf4⟩ := fixupStop_facts hinv hcur hjlt hjge hNT
  have hstarts : (setStop (fixupStop blocks j codeStart) blockIdx j).map
      ABlock.start = blocks.map ABlock.start := by
    rw [setStop_map_start, hf2]
  refine ⟨⟨⟨?_, ?_⟩, ?_, by simp, by simp⟩, hstarts⟩
  · rw [hstarts]
    exact hinv.1
  · intro b2 hb2
    rcases mem_setStop hb2 with hmem | ⟨b, hbget, hbe⟩
    · exact hf3 _ hmem
    · rw [hf1] at hbget
      have hb := Option.some_injective _ hbget
      subst hbe
      rw [← hb]
      refine Or.inr ⟨hjge, hjlt, ?_⟩
      intro m hm1 hm2 hm3 c hc
      have hm1b : codeStart ≤ m := hm1
      have hm2b : m ≤ j := hm2
      exact hPC m hm1b (by omega) hm3 c hc
  · intro b hmem hopen hne
    obtain ⟨k, hk⟩ := List.mem_iff_get?.mp hmem
    have hkne : k ≠ blockIdx := by
      intro he
      rw [he, hcur] at hk
      have h3 := Option.some_injective _ hk
      rw [← h3] at hne
      exact hne rfl
    have hk2 : (setStop (fixupStop blocks j codeStart) blockIdx j).get? k =
        some b := by
      rw [setStop_get?, if_neg hkne]
      exact hf4 k b hk hopen
    exact List.get?_mem hk2

/-- Closing at the branch and opening one fresh block at the branch target. -/
theorem scanPost_one {code : List ACode} {startF codeStart blockIdx j target : Nat}
    {blocks : List ABlock}
    (hinv : AInv code startF blocks)
    (hcur : blocks.get? blockIdx = some ⟨codeStart, code.length⟩)
    (hjlt : j < code.length) (hjge : codeStart ≤ j)
    (hNT : ∀ m, codeStart < m → m < j + 1 → ∀ b ∈ blocks, b.start ≠ m)
    (hPC : ∀ m, codeStart ≤ m → m < j + 1 → startF < m →
      ∀ c, code.get? m = some c → isPrologue c = false)
    (hfresh : target ∉ blocks.map ABlock.start) :
    ScanPost code startF codeStart blocks
      (setStop (fixupStop blocks j codeStart) blockIdx j ++
        ([⟨target, code.length⟩] : List ABlock)) [target] ∧
    (setStop (fixupStop blocks j codeStart) blockIdx j ++
        ([⟨target, code.length⟩] : List ABlock)).map ABlock.start =
      blocks.map ABlock.start ++ [target] := by
  obtain ⟨⟨hCinv, hCopen, _, _⟩, hCstarts⟩ :=
    scanPost_close hinv hcur hjlt hjge hNT hPC
  have hstarts : (setStop (fixupStop blocks j codeStart) blockIdx j ++
      ([⟨target, code.length⟩] : List ABlock)).map ABlock.start =
      blocks.map ABlock.start ++ [target] := by
    rw [List.map_append, hCstarts]
    rfl
  refine ⟨⟨⟨?_, ?_⟩, ?_, ?_, by simp⟩, hstarts⟩
  · rw [hstarts]
    exact nodup_append_singleton hinv.1 hfresh
  · intro b2 hb2
    rcases List.mem_append.mp hb2 with h1 | h1
    · exact hCinv.2 _ h1
    · rw [List.mem_singleton.mp h1]
      exact Or.inl rfl
  · intro b hb ho hne
    exact List.mem_append_left _ (hCopen b hb ho hne)
  · intro p hp
    rw [List.mem_singleton.mp hp]
    exact ⟨hfresh, ⟨target, code.length⟩,
      List.mem_append_right _ (List.mem_singleton.mpr rfl), rfl, rfl⟩

/-- Closing at the branch and opening fresh blocks at the branch target and
at the fall-through position. -/
theorem scanPost_two {code : List ACode} {startF codeStart blockIdx j target : Nat}
    {blocks : List ABlock}
    (hinv : AInv code startF blocks)
    (hcur : blocks.get? blockIdx = some ⟨codeStart, code.length⟩)
    (hjlt : j < code.length) (hjge : codeStart ≤ j)
    (hNT : ∀ m, codeStart < m → m < j + 1 → ∀ b ∈ blocks, b.start ≠ m)
    (hPC : ∀ m, codeStart ≤ m → m < j + 1 → startF < m →
      ∀ c, code.get? m = some c → isPrologue c = false)
    (hfresh : target ∉ blocks.map ABlock.start)
    (hfresh2 : j + 1 ∉ blocks.map ABlock.start ++ [target]) :
    ScanPost code startF codeStart blocks
      ((setStop (fixupStop blocks j codeStart) blockIdx j ++
        ([⟨target, code.length⟩] : List ABlock)) ++
        ([⟨j + 1, code.length⟩] : List ABlock))
      [target, j + 1] := by
  obtain ⟨⟨hBinv, hBopen, hBpush, _⟩, hBstarts⟩ :=
    scanPost_one hinv hcur hjlt hjge hNT hPC hfresh
  have htj : target ≠ j + 1 := by
    intro he
    exact hfresh2 (by rw [← he]; exact List.mem_append_right _ (by simp))
  refine ⟨⟨?_, ?_⟩, ?_, ?_, by simp [htj]⟩
  · rw [List.map_append, hBstarts]
    exact nodup_append_singleton
      (nodup_append_singleton hinv.1 hfresh)
      (by simpa using hfresh2)
  · intro b2 hb2
    rcases List.mem_append.mp hb2 with h1 | h1
    · exact hBinv.2 _ h1
    · rw [List.mem_singleton.mp h1]
      exact Or.inl rfl
  · intro b hb ho hne
    exact List.mem_append_left _ (hBopen b hb ho hne)
  · intro p hp
    rcases List.mem_cons.mp hp with rfl | hp2
    · obtain ⟨hp1, b2, hb2m, hb2s, hb2o⟩ := hBpush p (by simp)
      exact ⟨hp1, b2, List.mem_append_left _ hb2m, hb2s, hb2o⟩
    · rw [List.mem_singleton.mp hp2]
      refine ⟨fun hmem => hfresh2 (List.mem_append_left _ hmem),
        ⟨j + 1, code.length⟩,
        List.mem_append_right _ (List.mem_singleton.mpr rfl), rfl, rfl⟩

/-- Soundness of one inner walk: starting inside the current open block,
with no other block starting strictly inside the stretch walked so far and
every prologue check passed there, a successful walk satisfies ScanPost. -/
theorem scanBlock_inv {code : List ACode} {startF codeStart blockIdx : Nat}
    {blocks : List ABlock}
    (hmono : code.Pairwise (fun a b => a.offset < b.offset))
    (hinv : AInv code startF blocks)
    (hcur : blocks.get? blockIdx = some ⟨codeStart, code.length⟩) :
    ∀ n j, code.length - j = n → codeStart ≤ j →
      (∀ m, codeStart < m → m < j → ∀ b ∈ blocks, b.start ≠ m) →
      (∀ m, codeStart ≤ m → m < j → startF < m →
        ∀ c, code.get? m = some c → isPrologue c = false) →
      ∀ blocks2 pushes,
        scanBlock code startF codeStart blockIdx blocks (code.drop j) =
          .ok (blocks2, pushes) →
        ScanPost code startF codeStart blocks blocks2 pushes := by
  intro n
  induction n with
  | zero =>
    intro j hn hjge hNT hPC blocks2 pushes hscan
    rw [List.drop_eq_nil_iff.mpr (by omega)] at hscan
    have heq : scanBlock code startF codeStart blockIdx blocks [] =
        .ok (blocks, []) := rfl
    rw [heq] at hscan
    simp only [Except.ok.injEq, Prod.mk.injEq] at hscan
    obtain ⟨h1, h2⟩ := hscan
    subst h1
    subst h2
    exact scanPost_refl hinv
  | succ n ih =>
    intro j hn hjge hNT hPC blocks2 pushes hscan
    have hjlt : j < code.length := by omega
    rcases hc : code.get? j with _ | c
    · exact absurd (List.get?_eq_none.mp hc) (by omega)
    have hdrop : code.drop j = c :: code.drop (j + 1) := by
      have h1 := List.drop_eq_getElem_cons hjlt
      have h2 : code.get? j = some code[j] := by
        rw [List.get?_eq_getElem?, List.getElem?_eq_getElem hjlt]
      rw [hc] at h2
      have h3 : c = code[j] := Option.some_injective _ h2
      rw [h1, ← h3]
    rw [hdrop] at hscan
    unfold scanBlock at hscan
    rw [offset2idx_self hmono hc] at hscan
    dsimp only at hscan
    by_cases htr : j > codeStart ∧ blocks.any (fun b => b.start == j) = true
    · rw [if_pos htr] at hscan
      obtain ⟨htr1, htr2⟩ := htr
      simp only [Except.ok.injEq, Prod.mk.injEq] at hscan
      obtain ⟨h1, h2⟩ := hscan
      subst h1
      subst h2
      exact scanPost_setStop hinv hcur (by omega) (by omega)
        (fun m hm1 hm2 hm3 c2 hc2 => hPC m hm1 (by omega) hm3 c2 hc2)
    rw [if_neg htr] at hscan
    by_cases hpr : j > startF ∧ isPrologue c = true
    · rw [if_pos hpr] at hscan
      exact absurd hscan (by simp)
    rw [if_neg hpr] at hscan
    have hNT1 : ∀ m, codeStart < m → m < j + 1 → ∀ b ∈ blocks, b.start ≠ m := by
      intro m hm1 hm2 b hb he
      rcases Nat.lt_or_ge m j with hlt | hge
      · exact hNT m hm1 hlt b hb he
      · have hmj : m = j := by omega
        subst hmj
        exact htr ⟨hm1, List.any_eq_true.mpr ⟨b, hb, by simp [he]⟩⟩
    have hPC1 : ∀ m, codeStart ≤ m → m < j + 1 → startF < m →
        ∀ c2, code.get? m = some c2 → isPrologue c2 = false := by
      intro m hm1 hm2 hm3 c2 hc2
      rcases Nat.lt_or_ge m j with hlt | hge
      · exact hPC m hm1 hlt hm3 c2 hc2
      · have hmj : m = j := by omega
        subst hmj
        rw [hc] at hc2
        have hcc := Option.some_injective _ hc2
        subst hcc
        by_contra hbad
        rw [Bool.not_eq_false] at hbad
        exact hpr ⟨hm3, hbad⟩
    have hrec : scanBlock code startF codeStart blockIdx blocks
        (code.drop (j + 1)) = .ok (blocks2, pushes) →
        ScanPost code startF codeStart blocks blocks2 pushes :=
      fun hs => ih (j + 1) (by omega) (by omega) hNT1 hPC1 blocks2 pushes hs
    rcases hop : c.instruction.opcode with _ | _ | _ | _ | _ | _ | _
    · -- push
      rw [hop] at hscan
      dsimp only at hscan
      exact hrec hscan
    · -- pop
      rw [hop] at hscan
      dsimp only at hscan
      by_cases hep : isEpilogue c = true
      · rw [if_pos hep] at hscan
        simp only [Except.ok.injEq, Prod.mk.injEq] at hscan
        obtain ⟨h1, h2⟩ := hscan
        subst h1
        subst h2
        exact scanPost_setStop hinv hcur hjge hjlt
          (fun m hm1 hm2 hm3 c2 hc2 => hPC1 m hm1 (by omega) hm3 c2 hc2)
      · rw [if_neg hep] at hscan
        exact hrec hscan
    · -- b
      rw [hop] at hscan
      dsimp only at hscan
      rw [if_pos (show (AOpcode.b == AOpcode.b) = true from rfl),
        show (AOpcode.b == AOpcode.cbz) = false from rfl,
        show (AOpcode.b == AOpcode.cbnz) = false from rfl,
        Bool.or_self, Bool.or_false] at hscan
      rcases hto : c.instruction.operand0 with bits | t | r | v | _
      · rw [hto] at hscan
        dsimp only at hscan
        exact hrec hscan
      · rw [hto] at hscan
        dsimp only at hscan
        by_cases hov : (c.offset + 4 : Int) + t < 0
        · rw [if_pos hov] at hscan
          exact absurd hscan (by simp)
        rw [if_neg hov] at hscan
        rcases htgt : offset2idx code ((c.offset + 4 : Int) + t).toNat
          with _ | target
        · rw [htgt] at hscan
          exact absurd hscan (by simp)
        rw [htgt] at hscan
        dsimp only at hscan
        rw [hcur] at hscan
        dsimp only at hscan
        by_cases hb5 : code.length < target + 5
        · rw [if_pos hb5] at hscan
          exact absurd hscan (by simp)
        rw [if_neg hb5] at hscan
        rcases hcs : code.get? startF with _ | cstart
        · rw [hcs] at hscan
          exact absurd hscan (by simp)
        rw [hcs] at hscan
        dsimp only at hscan
        by_cases htail : (c.instruction.condition == ACond.al &&
            ((code.drop target).take 5).any
              (fun cc => isPrologue cc && cc.offset != cstart.offset)) = true
        · rw [if_pos htail] at hscan
          simp only [Except.ok.injEq, Prod.mk.injEq] at hscan
          obtain ⟨h1, h2⟩ := hscan
          subst h1
          subst h2
          exact (scanPost_close hinv hcur hjlt hjge hNT1 hPC1).1
        rw [if_neg htail] at hscan
        by_cases hex : blocks.any (fun b => b.start == target) = true
        · rw [if_pos hex] at hscan
          simp only [Except.ok.injEq, Prod.mk.injEq] at hscan
          obtain ⟨h1, h2⟩ := hscan
          subst h1
          subst h2
          exact (scanPost_close hinv hcur hjlt hjge hNT1 hPC1).1
        rw [if_neg hex] at hscan
        have hfresh : target ∉ blocks.map ABlock.start :=
          fun hm => hex ((any_start_iff blocks target).mpr hm)
        by_cases hcond : (c.instruction.condition != ACond.al) = true
        · rw [if_pos hcond] at hscan
          by_cases hex2 : ((setStop (fixupStop blocks j codeStart) blockIdx j ++
              ([⟨target, code.length⟩] : List ABlock)).any
              (fun b => b.start == j + 1)) = true
          · rw [if_pos hex2] at hscan
            simp only [Except.ok.injEq, Prod.mk.injEq] at hscan
            obtain ⟨h1, h2⟩ := hscan
            subst h1
            subst h2
            exact (scanPost_one hinv hcur hjlt hjge hNT1 hPC1 hfresh).1
          · rw [if_neg hex2] at hscan
            have hfresh2 : j + 1 ∉ blocks.map ABlock.start ++ [target] := by
              intro hm
              apply hex2
              rw [any_start_iff,
                (scanPost_one hinv hcur hjlt hjge hNT1 hPC1 hfresh).2]
              exact hm
            simp only [Except.ok.injEq, Prod.mk.injEq] at hscan
            obtain ⟨h1, h2⟩ := hscan
            subst h1
            subst h2
            exact scanPost_two hinv hcur hjlt hjge hNT1 hPC1 hfresh hfresh2
        · rw [if_neg hcond] at hscan
          simp only [Except.ok.injEq, Prod.mk.injEq] at hscan
          obtain ⟨h1, h2⟩ := hscan
          subst h1
          subst h2
          exact (scanPost_one hinv hcur hjlt hjge hNT1 hPC1 hfresh).1
      · rw [hto] at hscan
        dsimp only at hscan
        exact hrec hscan
      · rw [hto] at hscan
        dsimp only at hscan
        exact hrec hscan
      · rw [hto] at hscan
        dsimp only at hscan
        exact hrec hscan
    · -- cbz
      rw [hop] at hscan
      dsimp only at hscan
      rw [if_neg (show ¬(AOpcode.cbz == AOpcode.b) = true from by decide),
        show (AOpcode.cbz == AOpcode.cbz) = true from rfl,
        Bool.true_or, Bool.or_true] at hscan
      rcases hto : c.instruction.operand1 with bits | t | r | v | _
      · rw [hto] at hscan
        dsimp only at hscan
        exact hrec hscan
      · rw [hto] at hscan
        dsimp only at hscan
        by_cases hov : (c.offset + 4 : Int) + t < 0
        · rw [if_pos hov] at hscan
          exact absurd hscan (by simp)
        rw [if_neg hov] at hscan
        rcases htgt : offset2idx code ((c.offset + 4 : Int) + t).toNat
          with _ | target
        · rw [htgt] at hscan
          exact absurd hscan (by simp)
        rw [htgt] at hscan
        dsimp only at hscan
        rw [hcur] at hscan
        dsimp only at hscan
        by_cases hb5 : code.length < target + 5
        · rw [if_pos hb5] at hscan
          exact absurd hscan (by simp)
        rw [if_neg hb5] at hscan
        rcases hcs : code.get? startF with _ | cstart
        · rw [hcs] at hscan
          exact absurd hscan (by simp)
        rw [hcs] at hscan
        dsimp only at hscan
        by_cases htail : (c.instruction.condition == ACond.al &&
            ((code.drop target).take 5).any
              (fun cc => isPrologue cc && cc.offset != cstart.offset)) = true
        · rw [if_pos htail] at hscan
          simp only [Except.ok.injEq, Prod.mk.injEq] at hscan
          obtain ⟨h1, h2⟩ := hscan
          subst h1
          subst h2
          exact (scanPost_close hinv hcur hjlt hjge hNT1 hPC1).1
        rw [if_neg htail] at hscan
        by_cases hex : blocks.any (fun b => b.start == target) = true
        · rw [if_pos hex] at hscan
          simp only [Except.ok.injEq, Prod.mk.injEq] at hscan
          obtain ⟨h1, h2⟩ := hscan
          subst h1
          subst h2
          exact (scanPost_close hinv hcur hjlt hjge hNT1 hPC1).1
        rw [if_neg hex] at hscan
        have hfresh : target ∉ blocks.map ABlock.start :=
          fun hm => hex ((any_start_iff blocks target).mpr hm)
        rw [if_pos (Eq.refl true)] at hscan
        by_cases hex2 : ((setStop (fixupStop blocks j codeStart) blockIdx j ++
            ([⟨target, code.length⟩] : List ABlock)).any
            (fun b => b.start == j + 1)) = true
        · rw [if_pos hex2] at hscan
          simp only [Except.ok.injEq, Prod.mk.injEq] at hscan
          obtain ⟨h1, h2⟩ := hscan
          subst h1
          subst h2
          exact (scanPost_one hinv hcur hjlt hjge hNT1 hPC1 hfresh).1
        · rw [if_neg hex2] at hscan
          have hfresh2 : j + 1 ∉ blocks.map ABlock.start ++ [target] := by
            intro hm
            apply hex2
            rw [any_start_iff,
              (scanPost_one hinv hcur hjlt hjge hNT1 hPC1 hfresh).2]
            exact hm
          simp only [Except.ok.injEq, Prod.mk.injEq] at hscan
          obtain ⟨h1, h2⟩ := hscan
          subst h1
          subst h2
          exact scanPost_two hinv hcur hjlt hjge hNT1 hPC1 hfresh hfresh2
      · rw [hto] at hscan
        dsimp only at hscan
        exact hrec hscan
      · rw [hto] at hscan
        dsimp only at hscan
        exact hrec hscan
      · rw [hto] at hscan
        dsimp only at hscan
        exact hrec hscan
    · -- cbnz
      rw [hop] at hscan
      dsimp only at hscan
      rw [if_neg (show ¬(AOpcode.cbnz == AOpcode.b) = true from by decide),
        show (AOpcode.cbnz == AOpcode.cbz) = false from rfl,
        show (AOpcode.cbnz == AOpcode.cbnz) = true from rfl,
        Bool.false_or, Bool.or_true] at hscan
      rcases hto : c.instruction.operand1 with bits | t | r | v | _
      · rw [hto] at hscan
        dsimp only at hscan
        exact hrec hscan
      · rw [hto] at hscan
        dsimp only at hscan
        by_cases hov : (c.offset + 4 : Int) + t < 0
        · rw [if_pos hov] at hscan
          exact absurd hscan (by simp)
        rw [if_neg hov] at hscan
        rcases htgt : offset2idx code ((c.offset + 4 : Int) + t).toNat
          with _ | target
        · rw [htgt] at hscan
          exact absurd hscan (by simp)
        rw [htgt] at hscan
        dsimp only at hscan
        rw [hcur] at hscan
        dsimp only at hscan
        by_cases hb5 : code.length < target + 5
        · rw [if_pos hb5] at hscan
          exact absurd hscan (by simp)
        rw [if_neg hb5] at hscan
        rcases hcs : code.get? startF with _ | cstart
        · rw [hcs] at hscan
          exact absurd hscan (by simp)
        rw [hcs] at hscan
        dsimp only at hscan
        by_cases htail : (c.instruction.condition == ACond.al &&
            ((code.drop target).take 5).any
              (fun cc => isPrologue cc && cc.offset != cstart.offset)) = true
        · rw [if_pos htail] at hscan
          simp only [Except.ok.injEq, Prod.mk.injEq] at hscan
          obtain ⟨h1, h2⟩ := hscan
          subst h1
          subst h2
          exact (scanPost_close hinv hcur hjlt hjge hNT1 hPC1).1
        rw [if_neg htail] at hscan
        by_cases hex : blocks.any (fun b => b.start == target) = true
        · rw [if_pos hex] at hscan
          simp only [Except.ok.injEq, Prod.mk.injEq] at hscan
          obtain ⟨h1, h2⟩ := hscan
          subst h1
          subst h2
          exact (scanPost_close hinv hcur hjlt hjge hNT1 hPC1).1
        rw [if_neg hex] at hscan
        have hfresh : target ∉ blocks.map ABlock.start :=
          fun hm => hex ((any_start_iff blocks target).mpr hm)
        rw [if_pos (Eq.refl true)] at hscan
        by_cases hex2 : ((setStop (fixupStop blocks j codeStart) blockIdx j ++
            ([⟨target, code.length⟩] : List ABlock)).any
            (fun b => b.start == j + 1)) = true
        · rw [if_pos hex2] at hscan
          simp only [Except.ok.injEq, Prod.mk.injEq] at hscan
          obtain ⟨h1, h2⟩ := hscan
          subst h1
          subst h2
          exact (scanPost_one hinv hcur hjlt hjge hNT1 hPC1 hfresh).1
        · rw [if_neg hex2] at hscan
          have hfresh2 : j + 1 ∉ blocks.map ABlock.start ++ [target] := by
            intro hm
            apply hex2
            rw [any_start_iff,
              (scanPost_one hinv hcur hjlt hjge hNT1 hPC1 hfresh).2]
            exact hm
          simp only [Except.ok.injEq, Prod.mk.injEq] at hscan
          obtain ⟨h1, h2⟩ := hscan
          subst h1
          subst h2
          exact scanPost_two hinv hcur hjlt hjge hNT1 hPC1 hfresh hfresh2
      · rw [hto] at hscan
        dsimp only at hscan
        exact hrec hscan
      · rw [hto] at hscan
        dsimp only at hscan
        exact hrec hscan
      · rw [hto] at hscan
        dsimp only at hscan
        exact hrec hscan
    · -- bx
      rw [hop] at hscan
      dsimp only at hscan
      rcases hr : c.instruction.operand0 with bits | t | r | v | _
      · rw [hr] at hscan
        dsimp only at hscan
        exact hrec hscan
      · rw [hr] at hscan
        dsimp only at hscan
        exact hrec hscan
      · rw [hr] at hscan
        dsimp only at hscan
        by_cases hr14 : r = 14
        · rw [if_pos hr14] at hscan
          simp only [Except.ok.injEq, Prod.mk.injEq] at hscan
          obtain ⟨h1, h2⟩ := hscan
          subst h1
          subst h2
          exact scanPost_setStop hinv hcur hjge hjlt
            (fun m hm1 hm2 hm3 c2 hc2 => hPC1 m hm1 (by omega) hm3 c2 hc2)
        · rw [if_neg hr14] at hscan
          exact hrec hscan
      · rw [hr] at hscan
        dsimp only at hscan
        exact hrec hscan
      · rw [hr] at hscan
        dsimp only at hscan
        exact hrec hscan
    · -- otherOpcode
      rw [hop] at hscan
      dsimp only at hscan
      exact hrec hscan

/-- The worklist loop keeps the block invariant. -/
theorem analyzeGo_inv {code : List ACode} {startF : Nat}
    (hmono : code.Pairwise (fun a b => a.offset < b.offset)) :
    ∀ fuel blocks queue result,
      AInv code startF blocks → QInv code blocks queue →
      analyzeGo code startF fuel blocks queue = .ok result →
      AInv code startF result := by
  intro fuel
  induction fuel with
  | zero =>
    intro blocks queue result _ _ h
    exact absurd h (by simp [analyzeGo])
  | succ f ih =>
    intro blocks queue result hinv hq h
    unfold analyzeGo at h
    rcases hlast : queue.getLast? with _ | codeStart
    · rw [hlast] at h
      dsimp only at h
      simp only [Except.ok.injEq] at h
      subst h
      exact hinv
    rw [hlast] at h
    dsimp only at h
    rcases hfi : blocks.findIdx? (fun b => b.start == codeStart) with _ | blockIdx
    · rw [hfi] at h
      exact absurd h (by simp)
    rw [hfi] at h
    dsimp only at h
    obtain ⟨hbi_lt, hbi_p, _⟩ := List.findIdx?_eq_some_iff_getElem.mp hfi
    simp only [beq_iff_eq] at hbi_p
    have hbget : blocks.get? blockIdx = some blocks[blockIdx] := by
      rw [List.get?_eq_getElem?, List.getElem?_eq_getElem hbi_lt]
    have hcs_mem : codeStart ∈ queue :=
      List.mem_of_mem_getLast? (Option.mem_def.mpr hlast)
    obtain ⟨bq, hbq_mem, hbq_start, hbq_open⟩ := hq.1 codeStart hcs_mem
    have hbeq : bq = blocks[blockIdx] :=
      start_mem_inj hinv.1 hbq_mem (List.getElem_mem hbi_lt)
        (by rw [hbq_start, hbi_p])
    have hbqv : bq = (⟨codeStart, code.length⟩ : ABlock) := by
      cases bq
      simp only at hbq_start hbq_open
      rw [hbq_start, hbq_open]
    have hcur : blocks.get? blockIdx = some ⟨codeStart, code.length⟩ := by
      rw [hbget, ← hbeq, hbqv]
    by_cases hlen : code.length < codeStart
    · rw [if_pos hlen] at h
      exact absurd h (by simp)
    rw [if_neg hlen] at h
    rcases hscan : scanBlock code startF codeStart blockIdx blocks
      (code.drop codeStart) with e | bqp
    · rw [hscan] at h
      exact absurd h (by simp)
    rw [hscan] at h
    dsimp only at h
    obtain ⟨hinv2, hopen2, hpush2, hpushpw⟩ :=
      scanBlock_inv hmono hinv hcur (code.length - codeStart) codeStart rfl
        le_rfl
        (fun m hm1 hm2 b hb he =>
          absurd (Nat.lt_trans hm1 hm2) (Nat.lt_irrefl codeStart))
        (fun m hm1 hm2 hm3 c hc =>
          absurd (Nat.lt_of_le_of_lt hm1 hm2) (Nat.lt_irrefl codeStart))
        bqp.1 bqp.2 hscan
    apply ih bqp.1 (queue.dropLast ++ bqp.2) result hinv2 ?_ h
    constructor
    · intro q hqmem
      rcases List.mem_append.mp hqmem with hq1 | hq2
      · have hqq : q ∈ queue := List.dropLast_subset _ hq1
        have hqne : q ≠ codeStart := dropLast_getLast?_ne hq.2 hlast hq1
        obtain ⟨b, hbm, hbs, hbo⟩ := hq.1 q hqq
        exact ⟨b, hopen2 b hbm hbo (by rw [hbs]; exact hqne), hbs, hbo⟩
      · obtain ⟨_, b2, hb2m, hb2s, hb2o⟩ := hpush2 q hq2
        exact ⟨b2, hb2m, hb2s, hb2o⟩
    · rw [List.pairwise_append]
      refine ⟨List.Pairwise.sublist (List.dropLast_sublist queue) hq.2,
        hpushpw, ?_⟩
      intro a ha b hb
      have haq : a ∈ queue := List.dropLast_subset _ ha
      obtain ⟨ba, hbam, hbas, _⟩ := hq.1 a haq
      obtain ⟨hbfresh, _⟩ := hpush2 b hb
      intro he
      subst he
      exact hbfresh (List.mem_map.mpr ⟨ba, hbam, hbas⟩)

instance : IsTotal ABlock (fun b1 b2 => b1.start ≤ b2.start) :=
  ⟨fun a b => Nat.le_total a.start b.start⟩

instance : IsTrans ABlock (fun b1 b2 => b1.start ≤ b2.start) :=
  ⟨fun _ _ _ h1 h2 => Nat.le_trans h1 h2⟩

/-- C8 (amended): when analyze_function succeeds on a buffer whose decoded
instructions carry strictly increasing byte offsets, the returned blocks are
strictly sorted by start index (so no two share a start), every block has
start at most stop with stop inside the buffer, and no block spans a
prologue instruction at an index strictly after the located function start;
blocks lying before that start, created by backward branches, may still span
foreign prologues, which is what the counterexample exhibits. -/
theorem c8_analyze_invariants {code : List ACode} {i fuel startF : Nat}
    {blocks : List ABlock}
    (hmono : code.Pairwise (fun a b => a.offset < b.offset))
    (hstart : findStart code i = .ok startF)
    (h : analyzeFunction code i fuel = .ok blocks) :
    List.Chain' (fun b1 b2 => b1.start < b2.start) blocks ∧
    (∀ b ∈ blocks, b.start ≤ b.stop ∧ b.stop < code.length) ∧
    (∀ b ∈ blocks, ∀ j, b.start ≤ j → j ≤ b.stop → startF < j →
      ∀ c, code.get? j = some c → isPrologue c = false) := by
  unfold analyzeFunction at h
  rw [hstart] at h
  dsimp only at h
  rcases hgo : analyzeGo code startF fuel [⟨startF, code.length⟩] [startF]
    with e | bl
  · rw [hgo] at h
    exact absurd h (by simp)
  rw [hgo] at h
  dsimp only at h
  have hinv0 : AInv code startF [⟨startF, code.length⟩] := by
    refine ⟨by simp, ?_⟩
    intro b hb
    rw [List.mem_singleton.mp hb]
    exact Or.inl rfl
  have hq0 : QInv code [⟨startF, code.length⟩] [startF] := by
    refine ⟨?_, by simp⟩
    intro q hq
    rw [List.mem_singleton.mp hq]
    exact ⟨⟨startF, code.length⟩, by simp, rfl, rfl⟩
  have hinv := analyzeGo_inv hmono fuel _ _ bl hinv0 hq0 hgo
  by_cases h1 : (sortBlocks bl).any (fun b => b.stop == code.length) = true
  · rw [if_pos h1] at h
    exact absurd h (by simp)
  rw [if_neg h1] at h
  by_cases h2 : (sortBlocks bl).length = 0
  · rw [if_pos h2] at h
    exact absurd h (by simp)
  rw [if_neg h2] at h
  by_cases h3 : (sortBlocks bl).any (fun b => b.stop + 1 < b.start) = true
  · rw [if_pos h3] at h
    exact absurd h (by simp)
  rw [if_neg h3] at h
  simp only [Except.ok.injEq] at h
  subst h
  have hperm : (sortBlocks bl).Perm bl := List.perm_insertionSort _ bl
  have hclosed : ∀ b ∈ sortBlocks bl, b.stop ≠ code.length := by
    intro b hb he
    exact h1 (List.any_eq_true.mpr ⟨b, hb, by simp [he]⟩)
  have hok : ∀ b ∈ sortBlocks bl, BOk code startF b := by
    intro b hb
    exact hinv.2 b (hperm.mem_iff.mp hb)
  have hbounds : ∀ b ∈ sortBlocks bl,
      b.start ≤ b.stop ∧ b.stop < code.length := by
    intro b hb
    rcases hok b hb with hopen | ⟨ha, hb2, _⟩
    · exact absurd hopen (hclosed b hb)
    · exact ⟨ha, hb2⟩
  have hpro : ∀ b ∈ sortBlocks bl, ∀ j, b.start ≤ j → j ≤ b.stop →
      startF < j → ∀ c, code.get? j = some c → isPrologue c = false := by
    intro b hb j hj1 hj2 hj3 c hc
    rcases hok b hb with hopen | ⟨_, _, h3b⟩
    · exact absurd hopen (hclosed b hb)
    · exact h3b j hj1 hj2 hj3 c hc
  have hnodup : ((sortBlocks bl).map ABlock.start).Nodup :=
    ((hperm.map ABlock.start).nodup_iff).mpr hinv.1
  have hsorted : (sortBlocks bl).Sorted (fun b1 b2 => b1.start ≤ b2.start) :=
    List.sorted_insertionSort _ bl
  have hpair : (sortBlocks bl).Pairwise (fun b1 b2 => b1.start < b2.start) := by
    have hsp : (sortBlocks bl).Pairwise (fun b1 b2 => b1.start ≤ b2.start) :=
      hsorted
    rw [List.pairwise_iff_getElem] at hsp ⊢
    intro a b ha hb hab
    have hle := hsp a b ha hb hab
    have hga : (sortBlocks bl).get? a = some (sortBlocks bl)[a] := by
      rw [List.get?_eq_getElem?, List.getElem?_eq_getElem ha]
    have hgb : (sortBlocks bl).get? b = some (sortBlocks bl)[b] := by
      rw [List.get?_eq_getElem?, List.getElem?_eq_getElem hb]
    rcases Nat.lt_or_ge (sortBlocks bl)[a].start (sortBlocks bl)[b].start
      with hlt | hge
    · exact hlt
    · have heq : (sortBlocks bl)[a].start = (sortBlocks bl)[b].start := by
        omega
      have := start_get?_inj hnodup hga hgb heq
      omega
  exact ⟨List.Pairwise.chain' hpair, hbounds, hpro⟩

/-- A two-instruction function: its prologue and a POP-PC epilogue. -/
def c8wcode : List ACode :=
  [⟨⟨.push, .regList (1 <<< 14), .otherOperand, .al⟩, 0⟩,
   ⟨⟨.pop, .regList (1 <<< 15), .otherOperand, .al⟩, 2⟩]

/-- Witness for c8_analyze_invariants: analyzing the two-instruction
function from index 1 locates start 0 and returns the single block (0, 1),
which is strictly sorted, in bounds, and spans no prologue after index 0. -/
theorem c8_analyze_invariants_witness :
    List.Chain' (fun b1 b2 => b1.start < b2.start) ([⟨0, 1⟩] : List ABlock) ∧
    (∀ b ∈ ([⟨0, 1⟩] : List ABlock), b.start ≤ b.stop ∧
      b.stop < c8wcode.length) ∧
    (∀ b ∈ ([⟨0, 1⟩] : List ABlock), ∀ j, b.start ≤ j → j ≤ b.stop → 0 < j →
      ∀ c, c8wcode.get? j = some c → isPrologue c = false) :=
  @c8_analyze_invariants c8wcode 1 5 0 [⟨0, 1⟩] (by decide) (by decide)
    (by decide)

end DaBoot
